import Mathlib

/-!
Verification of the graph-analytics core of the wiki-live-graph ML backend
(src/ml/server.py).  The Python functions are shallowly embedded as Lean
functions: JSON records become structures with `Option` fields (a missing
field is `none`, and reading a missing required field is a KeyError modelled
by `Except.error`), Python dicts become association lists with first-match
lookup and insert-or-replace update, NetworkX graphs become explicit
node/edge lists, and Python floats become exact rationals.  The library
algorithms (Louvain, PageRank iteration, weighted clustering,
IsolationForest, log2) are pluggable capability contracts in the source's
design, so they enter the embedding as oracle parameters; every claim that
depends on them is proved for all oracles satisfying the library's
documented output contract.
-/

namespace WikiLiveGraph

/-- A raw node record from the request payload.  Only the fields the server
reads are modelled; each is optional because JSON records may omit it. -/
structure RawNode where
  id : Option String
  label : Option String
  type : Option String
  editCount : Option Int
deriving DecidableEq, Repr

/-- A raw edge record from the request payload. -/
structure RawEdge where
  source : Option String
  target : Option String
  weight : Option ℚ
  view : Option String
deriving DecidableEq, Repr

/-- First-match lookup in an association list (Python dict read). -/
def lookupD {α : Type} : List (String × α) → String → Option α
  | [], _ => none
  | (k, v) :: rest, key => if k = key then some v else lookupD rest key

/-- Insert-or-replace update of an association list (Python dict write):
an existing binding is overwritten in place, a new key is appended. -/
def insertD {α : Type} (m : List (String × α)) (k : String) (v : α) :
    List (String × α) :=
  if (lookupD m k).isSome then
    m.map fun p => if p.1 = k then (k, v) else p
  else m ++ [(k, v)]

/-- The undirected NetworkX graph: insertion-ordered node list plus one
weighted entry per unordered pair of endpoints. -/
structure UGraph where
  nodes : List String
  edges : List (String × String × ℚ)
deriving DecidableEq, Repr

/-- The directed NetworkX graph: insertion-ordered node list plus one
weighted entry per ordered pair of endpoints. -/
structure DGraph where
  nodes : List String
  edges : List (String × String × ℚ)
deriving DecidableEq, Repr

/-- Node index mapping id to the raw node record (the server's node_map). -/
abbrev NodeMap : Type := List (String × RawNode)

/-- Whether the stored entry (a, b) represents the unordered pair {u, v}. -/
def pairEq (a b u v : String) : Bool :=
  (a = u && b = v) || (a = v && b = u)

def emptyU : UGraph := ⟨[], []⟩
def emptyD : DGraph := ⟨[], []⟩

/-- NetworkX add_node: appends the node unless already present. -/
def addNodeU (g : UGraph) (v : String) : UGraph :=
  if v ∈ g.nodes then g else { g with nodes := g.nodes ++ [v] }

def addNodeD (g : DGraph) (v : String) : DGraph :=
  if v ∈ g.nodes then g else { g with nodes := g.nodes ++ [v] }

/-- NetworkX Graph.has_edge: an entry for the unordered pair exists. -/
def hasEdgeU (g : UGraph) (u v : String) : Bool :=
  g.edges.any fun t => pairEq t.1 t.2.1 u v

/-- NetworkX DiGraph.has_edge: an entry for the ordered pair exists. -/
def hasEdgeD (g : DGraph) (u v : String) : Bool :=
  g.edges.any fun t => t.1 = u && t.2.1 = v

/-- Stored weight of the undirected edge {u, v}, if present. -/
def findW : List (String × String × ℚ) → String → String → Option ℚ
  | [], _, _ => none
  | (a, b, w) :: rest, u, v =>
    if pairEq a b u v then some w else findW rest u v

def weightU (g : UGraph) (u v : String) : Option ℚ := findW g.edges u v

/-- Stored weight of the directed edge (u, v), if present. -/
def findWD : List (String × String × ℚ) → String → String → Option ℚ
  | [], _, _ => none
  | (a, b, w) :: rest, u, v =>
    if a = u && b = v then some w else findWD rest u v

def weightD (g : DGraph) (u v : String) : Option ℚ := findWD g.edges u v

/-- The in-place weight increment G[src][tgt]["weight"] += w : add w to the
entry holding the unordered pair {u, v}. -/
def bumpW : List (String × String × ℚ) → String → String → ℚ →
    List (String × String × ℚ)
  | [], _, _, _ => []
  | (a, b, w0) :: rest, u, v, w =>
    if pairEq a b u v then (a, b, w0 + w) :: rest
    else (a, b, w0) :: bumpW rest u v w

/-- Replace the weight stored for the unordered pair {u, v}. -/
def setW : List (String × String × ℚ) → String → String → ℚ →
    List (String × String × ℚ)
  | [], _, _, _ => []
  | (a, b, w0) :: rest, u, v, w =>
    if pairEq a b u v then (a, b, w) :: rest
    else (a, b, w0) :: setW rest u v w

/-- Replace the weight stored for the ordered pair (u, v). -/
def setWD : List (String × String × ℚ) → String → String → ℚ →
    List (String × String × ℚ)
  | [], _, _, _ => []
  | (a, b, w0) :: rest, u, v, w =>
    if a = u && b = v then (a, b, w) :: rest
    else (a, b, w0) :: setWD rest u v w

/-- NetworkX Graph.add_edge: missing endpoints are added as nodes, then the
weight attribute for the pair is set (fresh pairs are appended). -/
def addEdgeU (g : UGraph) (u v : String) (w : ℚ) : UGraph :=
  let g1 := addNodeU (addNodeU g u) v
  if hasEdgeU g u v then { g1 with edges := setW g.edges u v w }
  else { g1 with edges := g.edges ++ [(u, v, w)] }

/-- NetworkX DiGraph.add_edge. -/
def addEdgeD (g : DGraph) (u v : String) (w : ℚ) : DGraph :=
  let g1 := addNodeD (addNodeD g u) v
  if hasEdgeD g u v then { g1 with edges := setWD g.edges u v w }
  else { g1 with edges := g.edges ++ [(u, v, w)] }

/-- The node loop of build_graphs: node_map[n["id"]] = n and add_node on
both graphs; a record without an id raises KeyError. -/
def addNodesLoop : List RawNode → UGraph → DGraph → NodeMap →
    Except String (UGraph × DGraph × NodeMap)
  | [], gu, gd, nm => .ok (gu, gd, nm)
  | n :: rest, gu, gd, nm =>
    match n.id with
    | none => .error "KeyError: id"
    | some i => addNodesLoop rest (addNodeU gu i) (addNodeD gd i) (insertD nm i n)

/-- e.get("view", "bipartite") -/
def edgeView (e : RawEdge) : String := e.view.getD "bipartite"

/-- e.get("weight", 1) -/
def edgeW (e : RawEdge) : ℚ := e.weight.getD 1

/-- One loop iteration on the undirected graph: a qualifying edge either
increments the stored weight of an existing pair or adds a fresh edge. -/
def edgeStepU (gu : UGraph) (src tgt : String) (w : ℚ) (view : String) :
    UGraph :=
  if view = "bipartite" ∨ view = "coedit" then
    (if hasEdgeU gu src tgt then
      { gu with edges := bumpW gu.edges src tgt w }
    else addEdgeU gu src tgt w)
  else gu

/-- One loop iteration on the directed graph: a bipartite edge is mirrored
in both directions, each direction inserted only if not already present. -/
def edgeStepD (gd : DGraph) (src tgt : String) (w : ℚ) (view : String) :
    DGraph :=
  if view = "bipartite" then
    (let g1 := if hasEdgeD gd src tgt then gd else addEdgeD gd src tgt w
     if hasEdgeD g1 tgt src then g1 else addEdgeD g1 tgt src w)
  else gd

/-- The edge loop of build_graphs: qualifying edges accumulate into the
undirected graph, bipartite edges are mirrored into the directed graph
(each direction inserted only if absent); a record without source or
target raises KeyError. -/
def addEdgesLoop : List RawEdge → UGraph → DGraph →
    Except String (UGraph × DGraph)
  | [], gu, gd => .ok (gu, gd)
  | e :: rest, gu, gd =>
    match e.source with
    | none => .error "KeyError: source"
    | some src =>
      match e.target with
      | none => .error "KeyError: target"
      | some tgt =>
        addEdgesLoop rest (edgeStepU gu src tgt (edgeW e) (edgeView e))
          (edgeStepD gd src tgt (edgeW e) (edgeView e))

/-- build_graphs: construct the undirected view, the directed view and the
node index from the raw records. -/
def build_graphs (nodes : List RawNode) (edges : List RawEdge) :
    Except String (UGraph × DGraph × NodeMap) :=
  match addNodesLoop nodes emptyU emptyD [] with
  | .error msg => .error msg
  | .ok (gu0, gd0, nm) =>
    match addEdgesLoop edges gu0 gd0 with
    | .error msg => .error msg
    | .ok (gu, gd) => .ok (gu, gd, nm)

/-- NetworkX G.degree(n) on the undirected view: unweighted incident-edge
count, a self-loop counting twice. -/
def degreeU (g : UGraph) (n : String) : ℕ :=
  (g.edges.map fun t =>
    (if t.1 = n then 1 else 0) + (if t.2.1 = n then 1 else 0)).sum

/-- The nodes kept for Louvain: those with positive degree. -/
def connectedNodes (g : UGraph) : List String :=
  g.nodes.filter fun n => 0 < degreeU g n

/-- G.subgraph(ns).copy(): the induced subgraph on the listed nodes. -/
def subgraphU (g : UGraph) (ns : List String) : UGraph :=
  { nodes := ns
    edges := g.edges.filter fun t => decide (t.1 ∈ ns) && decide (t.2.1 ∈ ns) }

/-- The node-to-community pairs produced by iterating enumerate over a
community list. -/
def commPairs (cl : List (List String)) : List (String × ℕ) :=
  (cl.enum.map fun p => p.2.map fun n => (n, p.1)).flatten

/-- Build a dict from a pair list by repeated insert-or-replace. -/
def dictOfPairs (pairs : List (String × ℕ)) : List (String × ℕ) :=
  pairs.foldl (fun m q => insertD m q.1 q.2) []

/-- The isolated-node loop: every node of the view not yet assigned gets
the catch-all label. -/
def addMissing (m : List (String × ℕ)) (ns : List String) (next : ℕ) :
    List (String × ℕ) :=
  ns.foldl (fun m n => if (lookupD m n).isSome then m else insertD m n next) m

/-- detect_communities: Louvain on the non-isolated induced subgraph, label
0 for everything on tiny or edgeless views, singleton fallback when Louvain
fails, and a shared catch-all label for isolated nodes.  The Louvain call is
an oracle parameter returning none when the library call raises. -/
def detect_communities (louvain : UGraph → Option (List (List String)))
    (g : UGraph) : List (String × ℕ) :=
  if g.nodes.length < 2 then g.nodes.map fun n => (n, 0)
  else
    let connected := connectedNodes g
    if connected.length < 2 then g.nodes.map fun n => (n, 0)
    else
      match louvain (subgraphU g connected) with
      | none => g.nodes.enum.map fun p => (p.2, p.1)
      | some cl => addMissing (dictOfPairs (commPairs cl)) g.nodes cl.length

/-- Python max over a non-empty list of values. -/
def listMax : List ℚ → ℚ
  | [] => 0
  | x :: xs => xs.foldl max x

/-- compute_pagerank: the nx.pagerank call is an oracle parameter (none
models the caught exception); its result is normalized by the maximum
score when that maximum is positive. -/
def compute_pagerank (pagerankFn : DGraph → Option (List (String × ℚ)))
    (gd : DGraph) : List (String × ℚ) :=
  if gd.nodes.length = 0 then []
  else
    match pagerankFn gd with
    | none => gd.nodes.map fun n => (n, 0)
    | some pr =>
      let max_pr := if pr.isEmpty then 1 else listMax (pr.map fun p => p.2)
      if 0 < max_pr then pr.map fun p => (p.1, p.2 / max_pr) else pr

/-- nx.degree_centrality: degree divided by the count of possible
neighbours, every node mapped to 1 on graphs with at most one node. -/
def degree_centrality (g : UGraph) : List (String × ℚ) :=
  if g.nodes.length ≤ 1 then g.nodes.map fun n => (n, 1)
  else g.nodes.map fun n =>
    (n, (degreeU g n : ℚ) / ((g.nodes.length : ℚ) - 1))

/-- node_map.get(node_id, dict()).get("label", node_id) -/
def labelOf (nm : NodeMap) (nid : String) : String :=
  match lookupD nm nid with
  | some n => n.label.getD nid
  | none => nid

/-- A hub record of the response. -/
structure Hub where
  id : String
  label : String
  degree : ℕ
deriving DecidableEq, Repr

/-- detect_hubs: sort by degree centrality descending (stable, as Python's
sorted), keep the top ceil(10%) with a minimum of one, report raw degree
and resolved label. -/
def detect_hubs (g : UGraph) (nm : NodeMap) : List Hub :=
  if g.nodes.length = 0 then []
  else
    let sorted_nodes :=
      (degree_centrality g).mergeSort fun a b => decide (b.2 ≤ a.2)
    let hub_count := max 1 (Nat.ceil ((sorted_nodes.length : ℚ) * 0.1))
    (sorted_nodes.take hub_count).map fun p =>
      { id := p.1, label := labelOf nm p.1, degree := degreeU g p.1 }

/-- An anomaly record of the response. -/
structure Anomaly where
  type : String
  score : ℚ
  details : String
deriving DecidableEq, Repr

/-- Python round(x, k) at the output boundary, modelled as exact rational
rounding to k decimal places. -/
def roundTo (x : ℚ) (k : ℕ) : ℚ :=
  ((round (x * (10 : ℚ) ^ k) : ℤ) : ℚ) / (10 : ℚ) ^ k

/-- detect_anomalies: below five nodes return the empty mapping; otherwise
build the per-node feature matrix (editCount, degree, weighted clustering
coefficient, influence score) and report the nodes the forest flags.
nx.clustering and the fitted IsolationForest (its predictions and decision
scores) are oracle parameters. -/
def detect_anomalies (clusteringFn : UGraph → List (String × ℚ))
    (forestFn : ℚ → List (List ℚ) → List ℤ × List ℚ)
    (g : UGraph) (nm : NodeMap) (pagerank : List (String × ℚ)) :
    List (String × Anomaly) :=
  if g.nodes.length < 5 then []
  else
    let node_ids := g.nodes
    let clustering := clusteringFn g
    let features := node_ids.map fun nid =>
      let info := lookupD nm nid
      [ (((info.bind RawNode.editCount).getD 0 : ℤ) : ℚ),
        (degreeU g nid : ℚ),
        (lookupD clustering nid).getD 0,
        (lookupD pagerank nid).getD 0 ]
    let valid_node_ids := node_ids
    if features.length < 5 then []
    else
      let contamination := min (0.1 : ℚ) (max (2 / (features.length : ℚ)) 0.01)
      let fr := forestFn contamination features
      valid_node_ids.enum.foldl (fun acc q =>
        if fr.1.getD q.1 1 = -1 then
          let nid := q.2
          let info := lookupD nm nid
          let label := (info.bind RawNode.label).getD nid
          let node_type := (info.bind RawNode.type).getD "unknown"
          let edit_count := (info.bind RawNode.editCount).getD 0
          let degree := degreeU g nid
          let td : String × String :=
            if node_type = "editor" ∧ 5 < edit_count then
              ("prolific_editor",
               label ++ " edited " ++ toString edit_count ++
                 " articles (IsolationForest outlier)")
            else if node_type = "article" ∧ 3 < degree then
              ("coordinated_edit",
               label ++ " has " ++ toString degree ++
                 " connections (IsolationForest outlier)")
            else
              ("structural_outlier",
               label ++ " flagged as structural outlier by IsolationForest")
          let raw_score := -(fr.2.getD q.1 0)
          let anomaly_score := min (max raw_score 0) 1
          insertD acc nid
            { type := td.1, score := roundTo anomaly_score 3, details := td.2 }
        else acc) []

/-- Weighted degree of a node (self-loop weight counted twice), as used by
the modularity formula. -/
def wdegreeU (g : UGraph) (n : String) : ℚ :=
  (g.edges.map fun t =>
    (if t.1 = n then t.2.2 else 0) + (if t.2.1 = n then t.2.2 else 0)).sum

/-- Partition check mirroring the validity condition under which
nx.community.modularity computes instead of raising NotAPartition. -/
def isPartitionOf (P : List (List String)) (g : UGraph) : Bool :=
  decide (P.flatten.length = g.nodes.length) &&
    g.nodes.all fun n => decide (n ∈ P.flatten)

/-- Weighted modularity of a partition of the undirected view; none models
the exceptions (invalid partition, zero total weight) that the caller's
try/except turns into 0. -/
def modularityQ (g : UGraph) (P : List (List String)) : Option ℚ :=
  let degSum := (g.nodes.map (wdegreeU g)).sum
  if isPartitionOf P g = true ∧ degSum ≠ 0 then
    let m := degSum / 2
    some (P.map (fun c =>
      let lc := ((g.edges.filter fun t =>
        decide (t.1 ∈ c) && decide (t.2.1 ∈ c)).map fun t => t.2.2).sum
      let degc := (c.map (wdegreeU g)).sum
      lc / m - (degc / degSum) ^ 2)).sum
  else none

/-- First-encounter-order deduplication (dict/set grouping order). -/
def dedupFirst {α : Type} [DecidableEq α] (l : List α) : List α :=
  l.foldl (fun acc x => if x ∈ acc then acc else acc ++ [x]) []

/-- The community evaluation block. -/
structure CommunityEval where
  modularity : ℚ
  numCommunities : ℕ
  coverage : ℚ
  largestSize : ℕ
  medianSize : ℤ
deriving DecidableEq, Repr

def zeroCommunityEval : CommunityEval := ⟨0, 0, 0, 0, 0⟩

/-- np.median on a multiset of sizes. -/
def medianQ (l : List ℕ) : ℚ :=
  let s := (l.map fun x => (x : ℚ)).mergeSort fun a b => decide (a ≤ b)
  let n := s.length
  if n = 0 then 0
  else if n % 2 = 1 then s.getD (n / 2) 0
  else (s.getD (n / 2 - 1) 0 + s.getD (n / 2) 0) / 2

/-- evaluate_communities. -/
def evaluate_communities (g : UGraph) (communities : List (String × ℕ)) :
    CommunityEval :=
  if communities.isEmpty ∨ g.edges.length = 0 then zeroCommunityEval
  else
    let inG := communities.filter fun p => decide (p.1 ∈ g.nodes)
    let commIds := dedupFirst (inG.map fun p => p.2)
    let partition := commIds.map fun cid =>
      dedupFirst ((inG.filter fun p => decide (p.2 = cid)).map fun p => p.1)
    if partition.isEmpty then zeroCommunityEval
    else
      let mod := (modularityQ g partition).getD 0
      let node_to_comm :=
        dictOfPairs ((partition.enum.map fun q => q.2.map fun n => (n, q.1)).flatten)
      let intra := (g.edges.filter fun t =>
        decide (lookupD node_to_comm t.1 = lookupD node_to_comm t.2.1)).length
      let total := g.edges.length
      let coverage :=
        if 0 < total then roundTo ((intra : ℚ) / (total : ℚ)) 3 else 0
      let sizes := (partition.map List.length).mergeSort fun a b => decide (b ≤ a)
      { modularity := roundTo mod 4
        numCommunities := partition.length
        coverage := coverage
        largestSize := sizes.headD 0
        medianSize := (medianQ (partition.map List.length)).floor }

/-- The influence evaluation block. -/
structure PagerankEval where
  gini : ℚ
  entropy : ℚ
  top10pct : ℚ
  nodeCount : ℕ
deriving DecidableEq, Repr

/-- evaluate_pagerank; log2 is an oracle parameter since binary logarithms
of rationals are irrational. -/
def evaluate_pagerank (log2Fn : ℚ → ℚ) (pagerank : List (String × ℚ)) :
    PagerankEval :=
  let values := pagerank.map fun p => p.2
  let n := values.length
  if n = 0 then ⟨0, 0, 0, 0⟩
  else
    let arr := values.mergeSort fun a b => decide (a ≤ b)
    let mean := arr.sum / (n : ℚ)
    let gini :=
      if 0 < mean then
        ((arr.enum.map fun q =>
          (2 * ((q.1 : ℚ) + 1) - (n : ℚ) - 1) * q.2).sum) /
          ((n : ℚ) * (n : ℚ) * mean)
      else 0
    let total := arr.sum
    let entropy :=
      if 0 < total then
        let p := (arr.filter fun x => decide (0 < x)).map fun x => x / total
        let e := -((p.map fun x => x * log2Fn x).sum)
        let max_entropy := if 1 < n then log2Fn (n : ℚ) else 1
        if 0 < max_entropy then e / max_entropy else 0
      else 0
    let top10_count := max 1 (Nat.ceil ((n : ℚ) * 0.1))
    let top10_sum := (arr.drop (n - top10_count)).sum
    let top10pct := if 0 < total then top10_sum / total else 0
    ⟨roundTo gini 4, roundTo entropy 4, roundTo top10pct 3, n⟩

/-- The hub evaluation block. -/
structure HubsEval where
  hubCount : ℕ
  maxDegree : ℕ
  meanDegree : ℚ
  hubConcentration : ℚ
deriving DecidableEq, Repr

/-- evaluate_hubs. -/
def evaluate_hubs (hubs : List Hub) : HubsEval :=
  if hubs.isEmpty then ⟨0, 0, 0, 0⟩
  else
    let degrees := hubs.map fun h => h.degree
    let max_degree : ℕ := degrees.headD 0
    let total_degree := degrees.sum
    let mean_degree := roundTo ((total_degree : ℚ) / (degrees.length : ℚ)) 1
    let hub_concentration :=
      if 0 < total_degree then
        roundTo ((max_degree : ℚ) / (total_degree : ℚ)) 3
      else 0
    ⟨hubs.length, max_degree, mean_degree, hub_concentration⟩

/-- The anomaly evaluation block. -/
structure AnomalyEval where
  totalCount : ℕ
  prolificEditors : ℕ
  coordinatedEdits : ℕ
  avgScore : ℚ
deriving DecidableEq, Repr

/-- evaluate_anomalies. -/
def evaluate_anomalies (anomalies : List (String × Anomaly)) : AnomalyEval :=
  let entries := anomalies.map fun p => p.2
  let prolific := entries.filter fun a => decide (a.type = "prolific_editor")
  let coordinated := entries.filter fun a => decide (a.type = "coordinated_edit")
  let avg_score :=
    if entries.isEmpty then 0
    else roundTo ((entries.map fun a => a.score).sum / (entries.length : ℚ)) 3
  ⟨entries.length, prolific.length, coordinated.length, avg_score⟩

/-- The evaluation section of the response. -/
structure Evaluation where
  community : CommunityEval
  pagerank : PagerankEval
  hubs : HubsEval
  anomaly : AnomalyEval
deriving DecidableEq, Repr

/-- The full analysis response. -/
structure Response where
  communities : List (String × ℕ)
  pagerank : List (String × ℚ)
  hubs : List Hub
  anomalies : List (String × Anomaly)
  evaluation : Evaluation
deriving DecidableEq, Repr

/-- The request payload; absent arrays default to empty. -/
structure Payload where
  nodes : Option (List RawNode)
  edges : Option (List RawEdge)
deriving DecidableEq, Repr

/-- The pluggable library algorithms consumed by the pipeline.  Option
results model calls whose exceptions the server catches. -/
structure MLOracles where
  louvain : UGraph → Option (List (List String))
  pagerankFn : DGraph → Option (List (String × ℚ))
  clusteringFn : UGraph → List (String × ℚ)
  forestFn : ℚ → List (List ℚ) → List ℤ × List ℚ
  log2Fn : ℚ → ℚ

/-- The fixed zeroed/empty response returned for fewer than three nodes. -/
def zeroResponse : Response :=
  { communities := []
    pagerank := []
    hubs := []
    anomalies := []
    evaluation :=
      { community := { modularity := 0, numCommunities := 0, coverage := 0,
                       largestSize := 0, medianSize := 0 }
        pagerank := { gini := 0, entropy := 0, top10pct := 0, nodeCount := 0 }
        hubs := { hubCount := 0, maxDegree := 0, meanDegree := 0,
                  hubConcentration := 0 }
        anomaly := { totalCount := 0, prolificEditors := 0,
                     coordinatedEdits := 0, avgScore := 0 } } }

/-- The analyze endpoint: short-circuit below three nodes, otherwise run
the pipeline; any failure (here: the KeyErrors of build_graphs) is caught
at this boundary and surfaced as an error response. -/
def analyze (o : MLOracles) (payload : Payload) : Except String Response :=
  let nodes := payload.nodes.getD []
  let edges := payload.edges.getD []
  if nodes.length < 3 then .ok zeroResponse
  else
    match build_graphs nodes edges with
    | .error msg => .error msg
    | .ok (gu, gd, node_map) =>
      let communities := detect_communities o.louvain gu
      let pagerank := compute_pagerank o.pagerankFn gd
      let hubs := detect_hubs gu node_map
      let anomalies :=
        detect_anomalies o.clusteringFn o.forestFn gu node_map pagerank
      .ok { communities := communities
            pagerank := pagerank
            hubs := hubs
            anomalies := anomalies
            evaluation :=
              { community := evaluate_communities gu communities
                pagerank := evaluate_pagerank o.log2Fn pagerank
                hubs := evaluate_hubs hubs
                anomaly := evaluate_anomalies anomalies } }

/-! Characterization functions used to state the claims. -/

/-- An input edge qualifies for the undirected view: its view tag (default
"bipartite") is "bipartite" or "coedit". -/
def qualU (e : RawEdge) : Bool :=
  (edgeView e = "bipartite") || (edgeView e = "coedit")

/-- An input edge qualifies for the directed view: its view tag (default
"bipartite") is "bipartite". -/
def isBip (e : RawEdge) : Bool := edgeView e = "bipartite"

/-- The input edge connects u and v (in either direction). -/
def matchesPair (e : RawEdge) (u v : String) : Bool :=
  match e.source, e.target with
  | some s, some t => pairEq s t u v
  | _, _ => false

/-- Some qualifying input edge connects u and v. -/
def qexists (edges : List RawEdge) (u v : String) : Bool :=
  edges.any fun e => qualU e && matchesPair e u v

/-- Total weight of the qualifying input edges between u and v. -/
def qweight (edges : List RawEdge) (u v : String) : ℚ :=
  ((edges.filter fun e => qualU e && matchesPair e u v).map edgeW).sum

/-- Some bipartite input edge connects u and v in either direction. -/
def bexists (edges : List RawEdge) (u v : String) : Bool :=
  edges.any fun e => isBip e && matchesPair e u v

/-- Weight of the first bipartite input edge connecting u and v. -/
def bfirstW (edges : List RawEdge) (u v : String) : Option ℚ :=
  (edges.find? fun e => isBip e && matchesPair e u v).map edgeW

/-- The input edge has both required endpoint fields. -/
def wfEdge (e : RawEdge) : Prop := e.source.isSome ∧ e.target.isSome

/-- The edge record mentions x as one of its endpoints. -/
def touches (e : RawEdge) (x : String) : Prop :=
  e.source = some x ∨ e.target = some x

instance (e : RawEdge) : Decidable (wfEdge e) := by unfold wfEdge; infer_instance
instance (e : RawEdge) (x : String) : Decidable (touches e x) := by
  unfold touches; infer_instance

/-! Basic lemmas about pairs, lookups and stored weights. -/

theorem pairEq_iff {a b u v : String} :
    pairEq a b u v = true ↔ (a = u ∧ b = v) ∨ (a = v ∧ b = u) := by
  simp [pairEq]

theorem pairEq_refl (u v : String) : pairEq u v u v = true := by
  simp [pairEq_iff]

theorem pairEq_swap (a b u v : String) : pairEq a b u v = pairEq b a u v := by
  simp only [pairEq]
  rw [Bool.or_comm]
  congr 1 <;> rw [Bool.and_comm]

theorem pairEq_congr {a b s t u v : String} (h : pairEq a b s t = true) :
    pairEq a b u v = pairEq s t u v := by
  rcases pairEq_iff.mp h with ⟨rfl, rfl⟩ | ⟨rfl, rfl⟩
  · rfl
  · exact pairEq_swap a b u v

theorem pairEq_trans {a b s t u v : String} (h1 : pairEq a b u v = true)
    (h2 : pairEq s t u v = true) : pairEq a b s t = true := by
  rcases pairEq_iff.mp h1 with ⟨rfl, rfl⟩ | ⟨rfl, rfl⟩ <;>
    rcases pairEq_iff.mp h2 with ⟨rfl, rfl⟩ | ⟨rfl, rfl⟩ <;>
      simp [pairEq_iff]

theorem lookupD_append {α : Type} (l₁ l₂ : List (String × α)) (k : String) :
    lookupD (l₁ ++ l₂) k = (lookupD l₁ k).orElse fun _ => lookupD l₂ k := by
  induction l₁ with
  | nil => simp [lookupD]
  | cons p rest ih =>
    obtain ⟨a, v⟩ := p
    by_cases h : a = k <;> simp [lookupD, h, ih]

theorem lookupD_eq_none {α : Type} {l : List (String × α)} {k : String} :
    lookupD l k = none ↔ k ∉ l.map Prod.fst := by
  induction l with
  | nil => simp [lookupD]
  | cons p rest ih =>
    obtain ⟨a, v⟩ := p
    by_cases h : a = k
    · subst h; simp [lookupD]
    · rw [lookupD, if_neg h, ih, List.map_cons, List.mem_cons]
      constructor
      · intro hk hor
        rcases hor with hk2 | hk2
        · exact h hk2.symm
        · exact hk hk2
      · intro hk hk2
        exact hk (Or.inr hk2)

theorem lookupD_isSome {α : Type} {l : List (String × α)} {k : String} :
    (lookupD l k).isSome = true ↔ k ∈ l.map Prod.fst := by
  constructor
  · intro h
    by_contra hmem
    rw [lookupD_eq_none.mpr hmem] at h
    simp at h
  · intro hmem
    cases hl : lookupD l k with
    | none => exact ((lookupD_eq_none.mp hl) hmem).elim
    | some v => rfl

theorem insertD_of_lookup_none {α : Type} {m : List (String × α)} {k : String}
    (h : lookupD m k = none) (v : α) : insertD m k v = m ++ [(k, v)] := by
  simp [insertD, h]

theorem findW_isSome {es : List (String × String × ℚ)} {u v : String} :
    (findW es u v).isSome = es.any fun t => pairEq t.1 t.2.1 u v := by
  induction es with
  | nil => simp [findW]
  | cons t rest ih =>
    obtain ⟨a, b, w⟩ := t
    by_cases h : pairEq a b u v = true <;> simp [findW, h, ih]

theorem findW_congr {es : List (String × String × ℚ)} {s t u v : String}
    (h : pairEq s t u v = true) : findW es u v = findW es s t := by
  induction es with
  | nil => rfl
  | cons p rest ih =>
    obtain ⟨a, b, w⟩ := p
    have hc : pairEq a b u v = pairEq a b s t := by
      by_cases h1 : pairEq a b u v = true
      · rw [h1, pairEq_trans h1 h]
      · by_cases h2 : pairEq a b s t = true
        · exfalso
          apply h1
          rw [pairEq_congr h2, h]
        · simp only [Bool.not_eq_true] at h1 h2
          rw [h1, h2]
    simp only [findW, hc]
    by_cases h2 : pairEq a b s t = true <;> simp [h2, ih]

theorem findW_append (l₁ l₂ : List (String × String × ℚ)) (u v : String) :
    findW (l₁ ++ l₂) u v = (findW l₁ u v).orElse fun _ => findW l₂ u v := by
  induction l₁ with
  | nil => simp [findW]
  | cons p rest ih =>
    obtain ⟨a, b, w⟩ := p
    by_cases h : pairEq a b u v = true <;> simp [findW, h, ih]

theorem findW_bumpW {es : List (String × String × ℚ)} {s t u v : String}
    {w : ℚ} :
    findW (bumpW es s t w) u v =
      if pairEq s t u v = true then (findW es u v).map (· + w)
      else findW es u v := by
  induction es with
  | nil => by_cases h : pairEq s t u v = true <;> simp [bumpW, findW, h]
  | cons p rest ih =>
    obtain ⟨a, b, w0⟩ := p
    by_cases hst : pairEq a b s t = true
    · have huv : pairEq a b u v = pairEq s t u v := pairEq_congr hst
      by_cases h : pairEq s t u v = true <;>
        simp [bumpW, hst, findW, huv, h]
    · by_cases huv : pairEq a b u v = true
      · have h2 : ¬ pairEq s t u v = true := fun hq => hst (pairEq_trans huv hq)
        simp [bumpW, hst, findW, huv, h2]
      · by_cases h : pairEq s t u v = true <;>
          simp [bumpW, hst, findW, huv, ih, h]

theorem findWD_append (l₁ l₂ : List (String × String × ℚ)) (u v : String) :
    findWD (l₁ ++ l₂) u v = (findWD l₁ u v).orElse fun _ => findWD l₂ u v := by
  induction l₁ with
  | nil => simp [findWD]
  | cons p rest ih =>
    obtain ⟨a, b, w⟩ := p
    by_cases h : a = u ∧ b = v
    · obtain ⟨rfl, rfl⟩ := h
      simp [findWD]
    · simp [findWD, h, ih]

theorem findWD_isSome {es : List (String × String × ℚ)} {u v : String} :
    (findWD es u v).isSome = es.any fun t => t.1 = u && t.2.1 = v := by
  induction es with
  | nil => simp [findWD]
  | cons p rest ih =>
    obtain ⟨a, b, w⟩ := p
    by_cases h : a = u ∧ b = v
    · obtain ⟨rfl, rfl⟩ := h
      simp [findWD]
    · simp [findWD, h, ih]

theorem hasEdgeU_isSome (g : UGraph) (u v : String) :
    hasEdgeU g u v = (weightU g u v).isSome := findW_isSome.symm

theorem hasEdgeD_isSome (g : DGraph) (u v : String) :
    hasEdgeD g u v = (weightD g u v).isSome := findWD_isSome.symm

theorem addEdgeU_edges {g : UGraph} {u v : String} {w : ℚ}
    (h : hasEdgeU g u v = false) :
    (addEdgeU g u v w).edges = g.edges ++ [(u, v, w)] := by
  simp [addEdgeU, h]

theorem addEdgeU_nodes (g : UGraph) (u v : String) (w : ℚ) :
    (addEdgeU g u v w).nodes = (addNodeU (addNodeU g u) v).nodes := by
  by_cases h : hasEdgeU g u v = true <;> simp [addEdgeU, h]

theorem addEdgeD_edges {g : DGraph} {u v : String} {w : ℚ}
    (h : hasEdgeD g u v = false) :
    (addEdgeD g u v w).edges = g.edges ++ [(u, v, w)] := by
  simp [addEdgeD, h]

theorem addEdgeD_nodes (g : DGraph) (u v : String) (w : ℚ) :
    (addEdgeD g u v w).nodes = (addNodeD (addNodeD g u) v).nodes := by
  by_cases h : hasEdgeD g u v = true <;> simp [addEdgeD, h]

theorem hasEdgeU_congr' {g : UGraph} {s t u v : String}
    (h : pairEq s t u v = true) : hasEdgeU g u v = hasEdgeU g s t := by
  rw [hasEdgeU_isSome, hasEdgeU_isSome]
  unfold weightU
  rw [findW_congr h]

/-- Effect of one undirected loop iteration on edge existence. -/
theorem edgeStepU_has (gu : UGraph) (src tgt u v : String) (w : ℚ)
    (view : String) :
    hasEdgeU (edgeStepU gu src tgt w view) u v =
      if view = "bipartite" ∨ view = "coedit" then
        (hasEdgeU gu u v || pairEq src tgt u v)
      else hasEdgeU gu u v := by
  by_cases hv : view = "bipartite" ∨ view = "coedit"
  · simp only [edgeStepU, if_pos hv]
    by_cases hh : hasEdgeU gu src tgt = true
    · rw [if_pos hh]
      have hb : hasEdgeU { gu with edges := bumpW gu.edges src tgt w } u v =
          hasEdgeU gu u v := by
        rw [hasEdgeU_isSome, hasEdgeU_isSome]
        show (findW (bumpW gu.edges src tgt w) u v).isSome =
          (findW gu.edges u v).isSome
        rw [findW_bumpW]
        by_cases hp : pairEq src tgt u v = true <;> simp [hp]
      rw [hb]
      by_cases hp : pairEq src tgt u v = true
      · have : hasEdgeU gu u v = true := by
          rw [hasEdgeU_congr' hp]
          exact hh
        simp [this, hp]
      · simp only [Bool.not_eq_true] at hp
        simp [hp]
    · simp only [Bool.not_eq_true] at hh
      rw [if_neg (by simp [hh])]
      rw [hasEdgeU_isSome]
      show (findW (addEdgeU gu src tgt w).edges u v).isSome =
        (hasEdgeU gu u v || pairEq src tgt u v)
      rw [addEdgeU_edges hh, findW_append]
      by_cases hp : pairEq src tgt u v = true
      · simp [findW, hp, hasEdgeU_isSome]
        cases hfw : findW gu.edges u v <;>
          simp [weightU, hfw, Option.orElse]
      · simp only [Bool.not_eq_true] at hp
        simp [findW, hp, hasEdgeU_isSome]
        cases hfw : findW gu.edges u v <;>
          simp [weightU, hfw, Option.orElse]
  · simp [edgeStepU, hv]

/-- Effect of one undirected loop iteration on the stored weight. -/
theorem edgeStepU_wOf (gu : UGraph) (src tgt u v : String) (w : ℚ)
    (view : String) :
    (weightU (edgeStepU gu src tgt w view) u v).getD 0 =
      (weightU gu u v).getD 0 +
        (if (view = "bipartite" ∨ view = "coedit") ∧ pairEq src tgt u v = true
         then w else 0) := by
  by_cases hv : view = "bipartite" ∨ view = "coedit"
  · simp only [edgeStepU, if_pos hv]
    by_cases hh : hasEdgeU gu src tgt = true
    · rw [if_pos hh]
      show (findW (bumpW gu.edges src tgt w) u v).getD 0 = _
      rw [findW_bumpW]
      by_cases hp : pairEq src tgt u v = true
      · rw [if_pos hp, if_pos ⟨hv, hp⟩]
        have hsome : (findW gu.edges u v).isSome = true := by
          show (weightU gu u v).isSome = true
          rw [← hasEdgeU_isSome, hasEdgeU_congr' hp]
          exact hh
        obtain ⟨w0, hw0⟩ := Option.isSome_iff_exists.mp hsome
        show ((findW gu.edges u v).map (· + w)).getD 0 =
          (findW gu.edges u v).getD 0 + w
        rw [hw0]
        rfl
      · rw [if_neg hp, if_neg (by intro hc; exact hp hc.2)]
        show (findW gu.edges u v).getD 0 = (findW gu.edges u v).getD 0 + 0
        ring
    · simp only [Bool.not_eq_true] at hh
      rw [if_neg (by simp [hh])]
      show (findW (addEdgeU gu src tgt w).edges u v).getD 0 = _
      rw [addEdgeU_edges hh, findW_append]
      by_cases hp : pairEq src tgt u v = true
      · rw [if_pos ⟨hv, hp⟩]
        have hnone : findW gu.edges u v = none := by
          rw [findW_congr hp]
          have : (findW gu.edges src tgt).isSome = false := by
            show (weightU gu src tgt).isSome = false
            rw [← hasEdgeU_isSome]
            exact hh
          exact Option.not_isSome_iff_eq_none.mp (by simp [this])
        rw [hnone]
        simp [weightU, hnone, findW, hp, Option.orElse]
      · simp only [Bool.not_eq_true] at hp
        rw [if_neg (by intro hc; rw [hc.2] at hp; cases hp)]
        have : findW [(src, tgt, w)] u v = none := by
          simp [findW, hp]
        rw [this]
        cases hfw : findW gu.edges u v <;>
          simp [weightU, hfw, Option.orElse]
  · rw [if_neg (by intro hc; exact hv hc.1)]
    simp [edgeStepU, hv]

theorem hasEdgeD_if_insert (gd : DGraph) (s t u v : String) (w : ℚ) :
    hasEdgeD (if hasEdgeD gd s t then gd else addEdgeD gd s t w) u v =
      (hasEdgeD gd u v || (s = u && t = v)) := by
  by_cases h : hasEdgeD gd s t = true
  · rw [if_pos h]
    by_cases hp : s = u ∧ t = v
    · obtain ⟨rfl, rfl⟩ := hp
      simp [h]
    · have : (decide (s = u) && decide (t = v)) = false := by
        simp only [Bool.and_eq_false_iff, decide_eq_false_iff_not]
        by_cases hs : s = u
        · exact Or.inr fun ht => hp ⟨hs, ht⟩
        · exact Or.inl hs
      rw [this, Bool.or_false]
  · simp only [Bool.not_eq_true] at h
    rw [if_neg (by simp [h])]
    show ((addEdgeD gd s t w).edges.any fun t' => t'.1 = u && t'.2.1 = v) = _
    rw [addEdgeD_edges h, List.any_append]
    simp [hasEdgeD]

theorem weightD_if_insert (gd : DGraph) (s t u v : String) (w : ℚ) :
    weightD (if hasEdgeD gd s t then gd else addEdgeD gd s t w) u v =
      if s = u ∧ t = v then (weightD gd u v).orElse fun _ => some w
      else weightD gd u v := by
  by_cases h : hasEdgeD gd s t = true
  · rw [if_pos h]
    by_cases hp : s = u ∧ t = v
    · obtain ⟨rfl, rfl⟩ := hp
      rw [if_pos ⟨rfl, rfl⟩]
      have : (weightD gd s t).isSome = true := by
        rw [← hasEdgeD_isSome]
        exact h
      obtain ⟨w0, hw0⟩ := Option.isSome_iff_exists.mp this
      rw [hw0]
      rfl
    · rw [if_neg hp]
  · simp only [Bool.not_eq_true] at h
    rw [if_neg (by simp [h])]
    show findWD (addEdgeD gd s t w).edges u v = _
    rw [addEdgeD_edges h, findWD_append]
    by_cases hp : s = u ∧ t = v
    · obtain ⟨rfl, rfl⟩ := hp
      rw [if_pos ⟨rfl, rfl⟩]
      simp [findWD, weightD]
    · rw [if_neg hp]
      have : findWD [(s, t, w)] u v = none := by
        have hns : ¬ ((decide (s = u) && decide (t = v)) = true) := by
          simp only [Bool.and_eq_true, decide_eq_true_eq]
          exact hp
        simp [findWD, hns]
      rw [this]
      cases hfw : findWD gd.edges u v <;> simp [weightD, hfw, Option.orElse]

/-- Effect of one directed loop iteration on directed edge existence. -/
theorem edgeStepD_has (gd : DGraph) (src tgt u v : String) (w : ℚ)
    (view : String) :
    hasEdgeD (edgeStepD gd src tgt w view) u v =
      if view = "bipartite" then (hasEdgeD gd u v || pairEq src tgt u v)
      else hasEdgeD gd u v := by
  by_cases hv : view = "bipartite"
  · rw [if_pos hv]
    simp only [edgeStepD, if_pos hv]
    rw [hasEdgeD_if_insert, hasEdgeD_if_insert]
    simp only [pairEq]
    rw [Bool.or_assoc]
    congr 1
    congr 1
    rw [Bool.and_comm]
  · simp [edgeStepD, hv]

/-- Effect of one directed loop iteration on the stored directed weight. -/
theorem edgeStepD_weight (gd : DGraph) (src tgt u v : String) (w : ℚ)
    (view : String) :
    weightD (edgeStepD gd src tgt w view) u v =
      if view = "bipartite" ∧ pairEq src tgt u v = true then
        (weightD gd u v).orElse fun _ => some w
      else weightD gd u v := by
  by_cases hv : view = "bipartite"
  · simp only [edgeStepD, if_pos hv]
    rw [weightD_if_insert, weightD_if_insert]
    by_cases h1 : src = u ∧ tgt = v
    · rw [if_pos h1]
      have hp : pairEq src tgt u v = true := by
        rw [pairEq_iff]
        exact Or.inl h1
      by_cases h2 : tgt = u ∧ src = v
      · rw [if_pos h2, if_pos ⟨hv, hp⟩]
        cases hfw : weightD gd u v <;> simp [hfw, Option.orElse]
      · rw [if_neg h2, if_pos ⟨hv, hp⟩]
    · rw [if_neg h1]
      by_cases h2 : tgt = u ∧ src = v
      · rw [if_pos h2]
        have hp : pairEq src tgt u v = true := by
          rw [pairEq_iff]
          exact Or.inr ⟨h2.2, h2.1⟩
        rw [if_pos ⟨hv, hp⟩]
      · have hp : ¬ pairEq src tgt u v = true := by
          rw [pairEq_iff]
          rintro (h | h)
          · exact h1 h
          · exact h2 ⟨h.2, h.1⟩
        rw [if_neg h2, if_neg fun hc => hp hc.2]
  · rw [if_neg fun hc => hv hc.1]
    simp [edgeStepD, hv]

/-! Node-set bookkeeping for the builder. -/

/-- Every stored edge's endpoints are nodes of the graph. -/
def closedU (g : UGraph) : Prop :=
  ∀ t ∈ g.edges, t.1 ∈ g.nodes ∧ t.2.1 ∈ g.nodes

def closedD (g : DGraph) : Prop :=
  ∀ t ∈ g.edges, t.1 ∈ g.nodes ∧ t.2.1 ∈ g.nodes

theorem mem_addNodeU {g : UGraph} {v x : String} :
    x ∈ (addNodeU g v).nodes ↔ x ∈ g.nodes ∨ x = v := by
  by_cases h : v ∈ g.nodes
  · simp only [addNodeU, if_pos h]
    exact ⟨Or.inl, fun hx => hx.elim id fun he => he ▸ h⟩
  · simp [addNodeU, h]

theorem mem_addNodeD {g : DGraph} {v x : String} :
    x ∈ (addNodeD g v).nodes ↔ x ∈ g.nodes ∨ x = v := by
  by_cases h : v ∈ g.nodes
  · simp only [addNodeD, if_pos h]
    exact ⟨Or.inl, fun hx => hx.elim id fun he => he ▸ h⟩
  · simp [addNodeD, h]

theorem mem_bumpW {es : List (String × String × ℚ)} {s t : String} {w : ℚ} :
    ∀ t' ∈ bumpW es s t w, ∃ w0, (t'.1, t'.2.1, w0) ∈ es := by
  induction es with
  | nil => simp [bumpW]
  | cons p rest ih =>
    obtain ⟨a, b, w0⟩ := p
    by_cases h : pairEq a b s t = true
    · simp only [bumpW, if_pos h, List.mem_cons]
      rintro t' (rfl | ht')
      · exact ⟨w0, by simp⟩
      · exact ⟨t'.2.2, Or.inr (by simpa using ht')⟩
    · simp only [bumpW, if_neg h, List.mem_cons]
      rintro t' (rfl | ht')
      · exact ⟨w0, by simp⟩
      · obtain ⟨w1, hw1⟩ := ih t' ht'
        exact ⟨w1, Or.inr hw1⟩

theorem hasEdgeU_endpoints {g : UGraph} {s t : String}
    (h : hasEdgeU g s t = true) (hc : closedU g) :
    s ∈ g.nodes ∧ t ∈ g.nodes := by
  obtain ⟨e, he, hpe⟩ := List.any_eq_true.mp h
  obtain ⟨h1, h2⟩ := hc e he
  rcases pairEq_iff.mp hpe with ⟨ha, hb⟩ | ⟨ha, hb⟩
  · exact ⟨ha ▸ h1, hb ▸ h2⟩
  · exact ⟨hb ▸ h2, ha ▸ h1⟩

theorem hasEdgeD_endpoints {g : DGraph} {s t : String}
    (h : hasEdgeD g s t = true) (hc : closedD g) :
    s ∈ g.nodes ∧ t ∈ g.nodes := by
  obtain ⟨e, he, hpe⟩ := List.any_eq_true.mp h
  obtain ⟨h1, h2⟩ := hc e he
  simp only [Bool.and_eq_true, decide_eq_true_eq] at hpe
  exact ⟨hpe.1 ▸ h1, hpe.2 ▸ h2⟩

theorem edgeStepU_mem_nodes {gu : UGraph} {src tgt x : String} {w : ℚ}
    {view : String} (hc : closedU gu) :
    x ∈ (edgeStepU gu src tgt w view).nodes ↔
      x ∈ gu.nodes ∨
        ((view = "bipartite" ∨ view = "coedit") ∧ (x = src ∨ x = tgt)) := by
  by_cases hv : view = "bipartite" ∨ view = "coedit"
  · simp only [edgeStepU, if_pos hv]
    by_cases hh : hasEdgeU gu src tgt = true
    · rw [if_pos hh]
      show x ∈ gu.nodes ↔ _
      constructor
      · exact Or.inl
      · rintro (hx | ⟨-, rfl | rfl⟩)
        · exact hx
        · exact (hasEdgeU_endpoints hh hc).1
        · exact (hasEdgeU_endpoints hh hc).2
    · simp only [Bool.not_eq_true] at hh
      rw [if_neg (by simp [hh])]
      show x ∈ (addEdgeU gu src tgt w).nodes ↔ _
      rw [addEdgeU_nodes, mem_addNodeU, mem_addNodeU]
      constructor
      · rintro ((hx | rfl) | rfl)
        · exact Or.inl hx
        · exact Or.inr ⟨hv, Or.inl rfl⟩
        · exact Or.inr ⟨hv, Or.inr rfl⟩
      · rintro (hx | ⟨-, rfl | rfl⟩)
        · exact Or.inl (Or.inl hx)
        · exact Or.inl (Or.inr rfl)
        · exact Or.inr rfl
  · simp [edgeStepU, hv]

theorem edgeStepU_closed {gu : UGraph} {src tgt : String} {w : ℚ}
    {view : String} (hc : closedU gu) :
    closedU (edgeStepU gu src tgt w view) := by
  by_cases hv : view = "bipartite" ∨ view = "coedit"
  · simp only [edgeStepU, if_pos hv]
    by_cases hh : hasEdgeU gu src tgt = true
    · rw [if_pos hh]
      intro t' ht'
      obtain ⟨w0, hw0⟩ := mem_bumpW t' ht'
      exact hc (t'.1, t'.2.1, w0) hw0
    · simp only [Bool.not_eq_true] at hh
      rw [if_neg (by simp [hh])]
      intro t' ht'
      rw [addEdgeU_edges hh] at ht'
      have hnodes : ∀ y, y ∈ gu.nodes ∨ y = src ∨ y = tgt →
          y ∈ (addEdgeU gu src tgt w).nodes := by
        intro y hy
        rw [addEdgeU_nodes, mem_addNodeU, mem_addNodeU]
        rcases hy with hy | rfl | rfl
        · exact Or.inl (Or.inl hy)
        · exact Or.inl (Or.inr rfl)
        · exact Or.inr rfl
      rcases List.mem_append.mp ht' with ht' | ht'
      · obtain ⟨h1, h2⟩ := hc t' ht'
        exact ⟨hnodes _ (Or.inl h1), hnodes _ (Or.inl h2)⟩
      · simp only [List.mem_singleton] at ht'
        subst ht'
        exact ⟨hnodes _ (Or.inr (Or.inl rfl)), hnodes _ (Or.inr (Or.inr rfl))⟩
  · simp only [edgeStepU, if_neg hv]
    exact hc

theorem dInsert_mem_nodes {gd : DGraph} {s t x : String} {w : ℚ}
    (hc : closedD gd) :
    x ∈ (if hasEdgeD gd s t then gd else addEdgeD gd s t w).nodes ↔
      x ∈ gd.nodes ∨ x = s ∨ x = t := by
  by_cases hh : hasEdgeD gd s t = true
  · rw [if_pos hh]
    constructor
    · exact Or.inl
    · rintro (hx | rfl | rfl)
      · exact hx
      · exact (hasEdgeD_endpoints hh hc).1
      · exact (hasEdgeD_endpoints hh hc).2
  · simp only [Bool.not_eq_true] at hh
    rw [if_neg (by simp [hh]), addEdgeD_nodes, mem_addNodeD, mem_addNodeD]
    tauto

theorem dInsert_closed {gd : DGraph} {s t : String} {w : ℚ}
    (hc : closedD gd) :
    closedD (if hasEdgeD gd s t then gd else addEdgeD gd s t w) := by
  by_cases hh : hasEdgeD gd s t = true
  · rw [if_pos hh]
    exact hc
  · simp only [Bool.not_eq_true] at hh
    rw [if_neg (by simp [hh])]
    intro t' ht'
    rw [addEdgeD_edges hh] at ht'
    have hnodes : ∀ y, y ∈ gd.nodes ∨ y = s ∨ y = t →
        y ∈ (addEdgeD gd s t w).nodes := by
      intro y hy
      rw [addEdgeD_nodes, mem_addNodeD, mem_addNodeD]
      tauto
    rcases List.mem_append.mp ht' with ht' | ht'
    · obtain ⟨h1, h2⟩ := hc t' ht'
      exact ⟨hnodes _ (Or.inl h1), hnodes _ (Or.inl h2)⟩
    · simp only [List.mem_singleton] at ht'
      subst ht'
      exact ⟨hnodes _ (Or.inr (Or.inl rfl)), hnodes _ (Or.inr (Or.inr rfl))⟩

theorem edgeStepD_mem_nodes {gd : DGraph} {src tgt x : String} {w : ℚ}
    {view : String} (hc : closedD gd) :
    x ∈ (edgeStepD gd src tgt w view).nodes ↔
      x ∈ gd.nodes ∨ (view = "bipartite" ∧ (x = src ∨ x = tgt)) := by
  by_cases hv : view = "bipartite"
  · simp only [edgeStepD, if_pos hv]
    rw [dInsert_mem_nodes (dInsert_closed hc), dInsert_mem_nodes hc]
    constructor
    · rintro ((hx | rfl | rfl) | rfl | rfl)
      · exact Or.inl hx
      · exact Or.inr ⟨hv, Or.inl rfl⟩
      · exact Or.inr ⟨hv, Or.inr rfl⟩
      · exact Or.inr ⟨hv, Or.inr rfl⟩
      · exact Or.inr ⟨hv, Or.inl rfl⟩
    · rintro (hx | ⟨-, rfl | rfl⟩)
      · exact Or.inl (Or.inl hx)
      · exact Or.inl (Or.inr (Or.inl rfl))
      · exact Or.inl (Or.inr (Or.inr rfl))
  · simp [edgeStepD, hv]

theorem edgeStepD_closed {gd : DGraph} {src tgt : String} {w : ℚ}
    {view : String} (hc : closedD gd) :
    closedD (edgeStepD gd src tgt w view) := by
  by_cases hv : view = "bipartite"
  · simp only [edgeStepD, if_pos hv]
    exact dInsert_closed (dInsert_closed hc)
  · simp only [edgeStepD, if_neg hv]
    exact hc

/-! Edge-loop characterization. -/

theorem qualU_iff {e : RawEdge} :
    qualU e = true ↔ (edgeView e = "bipartite" ∨ edgeView e = "coedit") := by
  simp [qualU]

theorem isBip_iff {e : RawEdge} :
    isBip e = true ↔ edgeView e = "bipartite" := by
  simp [isBip]

theorem matchesPair_eq {e : RawEdge} {src tgt : String}
    (hsrc : e.source = some src) (htgt : e.target = some tgt) (u v : String) :
    matchesPair e u v = pairEq src tgt u v := by
  simp [matchesPair, hsrc, htgt]

theorem touches_iff {e : RawEdge} {src tgt x : String}
    (hsrc : e.source = some src) (htgt : e.target = some tgt) :
    touches e x ↔ (x = src ∨ x = tgt) := by
  simp [touches, hsrc, htgt, eq_comm]

theorem qweight_cons (e : RawEdge) (rest : List RawEdge) (u v : String) :
    qweight (e :: rest) u v =
      (if (qualU e && matchesPair e u v) = true then edgeW e else 0) +
        qweight rest u v := by
  by_cases h : (qualU e && matchesPair e u v) = true <;>
    simp [qweight, List.filter_cons, h]

theorem bfirstW_cons (e : RawEdge) (rest : List RawEdge) (u v : String) :
    bfirstW (e :: rest) u v =
      if (isBip e && matchesPair e u v) = true then some (edgeW e)
      else bfirstW rest u v := by
  by_cases h : (isBip e && matchesPair e u v) = true <;>
    simp [bfirstW, List.find?_cons, h]

theorem qexists_cons (e : RawEdge) (rest : List RawEdge) (u v : String) :
    qexists (e :: rest) u v =
      ((qualU e && matchesPair e u v) || qexists rest u v) := by
  simp [qexists, List.any_cons]

theorem bexists_cons (e : RawEdge) (rest : List RawEdge) (u v : String) :
    bexists (e :: rest) u v =
      ((isBip e && matchesPair e u v) || bexists rest u v) := by
  simp [bexists, List.any_cons]

theorem addEdgesLoop_ok_wf :
    ∀ {es : List RawEdge} {gu : UGraph} {gd : DGraph} {res : UGraph × DGraph},
      addEdgesLoop es gu gd = .ok res → ∀ e ∈ es, wfEdge e := by
  intro es
  induction es with
  | nil =>
    intro gu gd res h e he
    cases he
  | cons e rest ih =>
    intro gu gd res h f hf
    cases hsrc : e.source with
    | none =>
      simp only [addEdgesLoop, hsrc] at h
      exact (Except.noConfusion h)
    | some src =>
      cases htgt : e.target with
      | none =>
        simp only [addEdgesLoop, hsrc, htgt] at h
        exact (Except.noConfusion h)
      | some tgt =>
        simp only [addEdgesLoop, hsrc, htgt] at h
        rcases List.mem_cons.mp hf with rfl | hf
        · exact ⟨by simp [hsrc], by simp [htgt]⟩
        · exact ih h f hf

theorem addEdgesLoop_total :
    ∀ (es : List RawEdge) (gu : UGraph) (gd : DGraph),
      (∀ e ∈ es, wfEdge e) → ∃ res, addEdgesLoop es gu gd = .ok res := by
  intro es
  induction es with
  | nil => exact fun gu gd _ => ⟨(gu, gd), rfl⟩
  | cons e rest ih =>
    intro gu gd hwf
    obtain ⟨hs, ht⟩ := hwf e (List.mem_cons_self _ _)
    obtain ⟨src, hsrc⟩ := Option.isSome_iff_exists.mp hs
    obtain ⟨tgt, htgt⟩ := Option.isSome_iff_exists.mp ht
    obtain ⟨res, hres⟩ := ih (edgeStepU gu src tgt (edgeW e) (edgeView e))
      (edgeStepD gd src tgt (edgeW e) (edgeView e))
      (fun f hf => hwf f (List.mem_cons_of_mem _ hf))
    refine ⟨res, ?_⟩
    simp only [addEdgesLoop, hsrc, htgt]
    exact hres

/-- The edge loop's full effect on edges and weights of both views. -/
theorem addEdgesLoop_char :
    ∀ {es : List RawEdge} {gu : UGraph} {gd : DGraph} {res : UGraph × DGraph},
      addEdgesLoop es gu gd = .ok res → ∀ u v : String,
      hasEdgeU res.1 u v = (hasEdgeU gu u v || qexists es u v)
      ∧ (weightU res.1 u v).getD 0 =
          (weightU gu u v).getD 0 + qweight es u v
      ∧ hasEdgeD res.2 u v = (hasEdgeD gd u v || bexists es u v)
      ∧ weightD res.2 u v = (weightD gd u v).orElse fun _ => bfirstW es u v := by
  intro es
  induction es with
  | nil =>
    intro gu gd res h u v
    simp only [addEdgesLoop] at h
    cases h
    refine ⟨by simp [qexists], by simp [qweight], by simp [bexists], ?_⟩
    cases hfw : weightD gd u v <;> simp [bfirstW, hfw, Option.orElse]
  | cons e rest ih =>
    intro gu gd res h u v
    cases hsrc : e.source with
    | none =>
      simp only [addEdgesLoop, hsrc] at h
      exact (Except.noConfusion h)
    | some src =>
      cases htgt : e.target with
      | none =>
        simp only [addEdgesLoop, hsrc, htgt] at h
        exact (Except.noConfusion h)
      | some tgt =>
        simp only [addEdgesLoop, hsrc, htgt] at h
        obtain ⟨ih1, ih2, ih3, ih4⟩ := ih h u v
        have hmp := matchesPair_eq hsrc htgt u v
        constructor
        · rw [ih1, edgeStepU_has, qexists_cons, hmp]
          by_cases hq : edgeView e = "bipartite" ∨ edgeView e = "coedit"
          · rw [if_pos hq]
            have hqt : qualU e = true := qualU_iff.mpr hq
            simp only [hqt, Bool.true_and]
            rw [Bool.or_assoc]
          · rw [if_neg hq]
            have hqf : qualU e = false := by
              rw [← Bool.not_eq_true]
              exact fun hc => hq (qualU_iff.mp hc)
            simp [hqf]
        constructor
        · rw [ih2, edgeStepU_wOf, qweight_cons, hmp]
          by_cases hq : edgeView e = "bipartite" ∨ edgeView e = "coedit"
          · have hqt : qualU e = true := qualU_iff.mpr hq
            by_cases hp : pairEq src tgt u v = true
            · rw [if_pos ⟨hq, hp⟩, if_pos (by simp [hqt, hp])]
              ring
            · rw [if_neg fun hc => hp hc.2, if_neg (by simp [hp])]
              ring
          · have hqf : qualU e = false := by
              rw [← Bool.not_eq_true]
              exact fun hc => hq (qualU_iff.mp hc)
            rw [if_neg fun hc => hq hc.1, if_neg (by simp [hqf])]
            ring
        constructor
        · rw [ih3, edgeStepD_has, bexists_cons, hmp]
          by_cases hb : edgeView e = "bipartite"
          · rw [if_pos hb]
            have hbt : isBip e = true := isBip_iff.mpr hb
            simp only [hbt, Bool.true_and]
            rw [Bool.or_assoc]
          · rw [if_neg hb]
            have hbf : isBip e = false := by
              rw [← Bool.not_eq_true]
              exact fun hc => hb (isBip_iff.mp hc)
            simp [hbf]
        · rw [ih4, edgeStepD_weight, bfirstW_cons, hmp]
          by_cases hb : edgeView e = "bipartite"
          · have hbt : isBip e = true := isBip_iff.mpr hb
            by_cases hp : pairEq src tgt u v = true
            · rw [if_pos ⟨hb, hp⟩, if_pos (by simp [hbt, hp])]
              cases hfw : weightD gd u v <;> simp [hfw, Option.orElse]
            · rw [if_neg fun hc => hp hc.2, if_neg (by simp [hp])]
          · have hbf : isBip e = false := by
              rw [← Bool.not_eq_true]
              exact fun hc => hb (isBip_iff.mp hc)
            rw [if_neg fun hc => hb hc.1, if_neg (by simp [hbf])]

/-- The edge loop's effect on the node sets of both views. -/
theorem addEdgesLoop_nodes :
    ∀ {es : List RawEdge} {gu : UGraph} {gd : DGraph} {res : UGraph × DGraph},
      addEdgesLoop es gu gd = .ok res → closedU gu → closedD gd →
      ∀ x : String,
      (x ∈ res.1.nodes ↔
        x ∈ gu.nodes ∨ ∃ e ∈ es, qualU e = true ∧ touches e x)
      ∧ (x ∈ res.2.nodes ↔
        x ∈ gd.nodes ∨ ∃ e ∈ es, isBip e = true ∧ touches e x) := by
  intro es
  induction es with
  | nil =>
    intro gu gd res h hcu hcd x
    simp only [addEdgesLoop] at h
    cases h
    simp
  | cons e rest ih =>
    intro gu gd res h hcu hcd x
    cases hsrc : e.source with
    | none =>
      simp only [addEdgesLoop, hsrc] at h
      exact (Except.noConfusion h)
    | some src =>
      cases htgt : e.target with
      | none =>
        simp only [addEdgesLoop, hsrc, htgt] at h
        exact (Except.noConfusion h)
      | some tgt =>
        simp only [addEdgesLoop, hsrc, htgt] at h
        obtain ⟨ih1, ih2⟩ := ih h (edgeStepU_closed hcu) (edgeStepD_closed hcd) x
        have htx : touches e x ↔ (x = src ∨ x = tgt) := touches_iff hsrc htgt
        constructor
        · rw [ih1, edgeStepU_mem_nodes hcu]
          simp only [List.mem_cons]
          constructor
          · rintro ((hx | ⟨hq, hst⟩) | ⟨f, hf, hfq, hft⟩)
            · exact Or.inl hx
            · exact Or.inr ⟨e, Or.inl rfl, qualU_iff.mpr hq, htx.mpr hst⟩
            · exact Or.inr ⟨f, Or.inr hf, hfq, hft⟩
          · rintro (hx | ⟨f, rfl | hf, hfq, hft⟩)
            · exact Or.inl (Or.inl hx)
            · exact Or.inl (Or.inr ⟨qualU_iff.mp hfq, htx.mp hft⟩)
            · exact Or.inr ⟨f, hf, hfq, hft⟩
        · rw [ih2, edgeStepD_mem_nodes hcd]
          simp only [List.mem_cons]
          constructor
          · rintro ((hx | ⟨hq, hst⟩) | ⟨f, hf, hfq, hft⟩)
            · exact Or.inl hx
            · exact Or.inr ⟨e, Or.inl rfl, isBip_iff.mpr hq, htx.mpr hst⟩
            · exact Or.inr ⟨f, Or.inr hf, hfq, hft⟩
          · rintro (hx | ⟨f, rfl | hf, hfq, hft⟩)
            · exact Or.inl (Or.inl hx)
            · exact Or.inl (Or.inr ⟨isBip_iff.mp hfq, htx.mp hft⟩)
            · exact Or.inr ⟨f, hf, hfq, hft⟩

/-! Node-loop characterization. -/

theorem addNodesLoop_ok_wf :
    ∀ {ns : List RawNode} {gu : UGraph} {gd : DGraph} {nm : NodeMap} {res},
      addNodesLoop ns gu gd nm = .ok res → ∀ n ∈ ns, n.id.isSome = true := by
  intro ns
  induction ns with
  | nil =>
    intro gu gd nm res h n hn
    cases hn
  | cons n rest ih =>
    intro gu gd nm res h m hm
    cases hid : n.id with
    | none =>
      simp only [addNodesLoop, hid] at h
      exact (Except.noConfusion h)
    | some i =>
      simp only [addNodesLoop, hid] at h
      rcases List.mem_cons.mp hm with rfl | hm
      · simp [hid]
      · exact ih h m hm

theorem addNodesLoop_total :
    ∀ (ns : List RawNode) (gu : UGraph) (gd : DGraph) (nm : NodeMap),
      (∀ n ∈ ns, n.id.isSome = true) →
      ∃ res, addNodesLoop ns gu gd nm = .ok res := by
  intro ns
  induction ns with
  | nil => exact fun gu gd nm _ => ⟨(gu, gd, nm), rfl⟩
  | cons n rest ih =>
    intro gu gd nm hwf
    obtain ⟨i, hid⟩ :=
      Option.isSome_iff_exists.mp (hwf n (List.mem_cons_self _ _))
    obtain ⟨res, hres⟩ := ih (addNodeU gu i) (addNodeD gd i) (insertD nm i n)
      (fun m hm => hwf m (List.mem_cons_of_mem _ hm))
    refine ⟨res, ?_⟩
    simp only [addNodesLoop, hid]
    exact hres

theorem addNodesLoop_edges :
    ∀ {ns : List RawNode} {gu : UGraph} {gd : DGraph} {nm : NodeMap} {res},
      addNodesLoop ns gu gd nm = .ok res →
      res.1.edges = gu.edges ∧ res.2.1.edges = gd.edges := by
  intro ns
  induction ns with
  | nil =>
    intro gu gd nm res h
    simp only [addNodesLoop] at h
    cases h
    exact ⟨rfl, rfl⟩
  | cons n rest ih =>
    intro gu gd nm res h
    cases hid : n.id with
    | none =>
      simp only [addNodesLoop, hid] at h
      exact (Except.noConfusion h)
    | some i =>
      simp only [addNodesLoop, hid] at h
      obtain ⟨h1, h2⟩ := ih h
      constructor
      · rw [h1]
        by_cases hm : i ∈ gu.nodes <;> simp [addNodeU, hm]
      · rw [h2]
        by_cases hm : i ∈ gd.nodes <;> simp [addNodeD, hm]

theorem addNodesLoop_mem :
    ∀ {ns : List RawNode} {gu : UGraph} {gd : DGraph} {nm : NodeMap} {res},
      addNodesLoop ns gu gd nm = .ok res → ∀ x : String,
      (x ∈ res.1.nodes ↔ x ∈ gu.nodes ∨ ∃ n ∈ ns, n.id = some x)
      ∧ (x ∈ res.2.1.nodes ↔ x ∈ gd.nodes ∨ ∃ n ∈ ns, n.id = some x) := by
  intro ns
  induction ns with
  | nil =>
    intro gu gd nm res h x
    simp only [addNodesLoop] at h
    cases h
    simp
  | cons n rest ih =>
    intro gu gd nm res h x
    cases hid : n.id with
    | none =>
      simp only [addNodesLoop, hid] at h
      exact (Except.noConfusion h)
    | some i =>
      simp only [addNodesLoop, hid] at h
      obtain ⟨ih1, ih2⟩ := ih h x
      constructor
      · rw [ih1, mem_addNodeU]
        simp only [List.mem_cons]
        constructor
        · rintro ((hx | rfl) | ⟨m, hm, hmid⟩)
          · exact Or.inl hx
          · exact Or.inr ⟨n, Or.inl rfl, hid⟩
          · exact Or.inr ⟨m, Or.inr hm, hmid⟩
        · rintro (hx | ⟨m, rfl | hm, hmid⟩)
          · exact Or.inl (Or.inl hx)
          · rw [hid] at hmid
            exact Or.inl (Or.inr (Option.some_injective _ hmid.symm))
          · exact Or.inr ⟨m, hm, hmid⟩
      · rw [ih2, mem_addNodeD]
        simp only [List.mem_cons]
        constructor
        · rintro ((hx | rfl) | ⟨m, hm, hmid⟩)
          · exact Or.inl hx
          · exact Or.inr ⟨n, Or.inl rfl, hid⟩
          · exact Or.inr ⟨m, Or.inr hm, hmid⟩
        · rintro (hx | ⟨m, rfl | hm, hmid⟩)
          · exact Or.inl (Or.inl hx)
          · rw [hid] at hmid
            exact Or.inl (Or.inr (Option.some_injective _ hmid.symm))
          · exact Or.inr ⟨m, hm, hmid⟩

/-! build_graphs level lemmas. -/

theorem build_graphs_ok_parts {nodes : List RawNode} {edges : List RawEdge}
    {r : UGraph × DGraph × NodeMap} (h : build_graphs nodes edges = .ok r) :
    ∃ st0 : UGraph × DGraph × NodeMap,
      addNodesLoop nodes emptyU emptyD [] = .ok st0 ∧
      addEdgesLoop edges st0.1 st0.2.1 = .ok (r.1, r.2.1) ∧
      r.2.2 = st0.2.2 := by
  unfold build_graphs at h
  cases han : addNodesLoop nodes emptyU emptyD [] with
  | error msg =>
    rw [han] at h
    exact (Except.noConfusion h)
  | ok st0 =>
    obtain ⟨gu0, gd0, nm⟩ := st0
    rw [han] at h
    have h2 : (match addEdgesLoop edges gu0 gd0 with
        | Except.error msg =>
          (Except.error msg : Except String (UGraph × DGraph × NodeMap))
        | Except.ok (gu, gd) => Except.ok (gu, gd, nm)) = Except.ok r := h
    cases hae : addEdgesLoop edges gu0 gd0 with
    | error msg =>
      rw [hae] at h2
      exact (Except.noConfusion h2)
    | ok st1 =>
      obtain ⟨gu, gd⟩ := st1
      rw [hae] at h2
      cases h2
      exact ⟨(gu0, gd0, nm), rfl, hae, rfl⟩

theorem build_graphs_ok_wf {nodes : List RawNode} {edges : List RawEdge}
    {r : UGraph × DGraph × NodeMap} (h : build_graphs nodes edges = .ok r) :
    (∀ n ∈ nodes, n.id.isSome = true) ∧ (∀ e ∈ edges, wfEdge e) := by
  obtain ⟨st0, han, hae, -⟩ := build_graphs_ok_parts h
  exact ⟨addNodesLoop_ok_wf han, addEdgesLoop_ok_wf hae⟩

theorem build_graphs_total {nodes : List RawNode} {edges : List RawEdge}
    (hn : ∀ n ∈ nodes, n.id.isSome = true) (he : ∀ e ∈ edges, wfEdge e) :
    ∃ r, build_graphs nodes edges = .ok r := by
  obtain ⟨⟨gu0, gd0, nm⟩, han⟩ := addNodesLoop_total nodes emptyU emptyD [] hn
  obtain ⟨⟨gu, gd⟩, hae⟩ := addEdgesLoop_total edges gu0 gd0 he
  refine ⟨(gu, gd, nm), ?_⟩
  unfold build_graphs
  rw [han]
  show (match addEdgesLoop edges gu0 gd0 with
      | Except.error msg =>
        (Except.error msg : Except String (UGraph × DGraph × NodeMap))
      | Except.ok (gu, gd) => Except.ok (gu, gd, nm)) = Except.ok (gu, gd, nm)
  rw [hae]

/-- Full characterization of edges and weights of both built views. -/
theorem build_graphs_edge_char {nodes : List RawNode} {edges : List RawEdge}
    {r : UGraph × DGraph × NodeMap} (h : build_graphs nodes edges = .ok r)
    (u v : String) :
    hasEdgeU r.1 u v = qexists edges u v
    ∧ weightU r.1 u v =
        (if qexists edges u v = true then some (qweight edges u v) else none)
    ∧ hasEdgeD r.2.1 u v = bexists edges u v
    ∧ weightD r.2.1 u v = bfirstW edges u v := by
  obtain ⟨st0, han, hae, -⟩ := build_graphs_ok_parts h
  obtain ⟨he1, he2⟩ := addNodesLoop_edges han
  have h0u : hasEdgeU st0.1 u v = false := by
    simp [hasEdgeU, he1, emptyU]
  have h0w : weightU st0.1 u v = none := by
    simp [weightU, he1, emptyU, findW]
  have h0d : hasEdgeD st0.2.1 u v = false := by
    simp [hasEdgeD, he2, emptyD]
  have h0wd : weightD st0.2.1 u v = none := by
    simp [weightD, he2, emptyD, findWD]
  obtain ⟨hc1, hc2, hc3, hc4⟩ := addEdgesLoop_char hae u v
  refine ⟨?_, ?_, ?_, ?_⟩
  · rw [hc1, h0u, Bool.false_or]
  · have hs : (weightU r.1 u v).isSome = qexists edges u v := by
      rw [← hasEdgeU_isSome, hc1, h0u, Bool.false_or]
    have hg : (weightU r.1 u v).getD 0 = qweight edges u v := by
      rw [hc2, h0w]
      simp
    by_cases hq : qexists edges u v = true
    · rw [if_pos hq]
      rw [hq] at hs
      obtain ⟨w0, hw0⟩ := Option.isSome_iff_exists.mp hs
      rw [hw0] at hg ⊢
      simp only [Option.getD_some] at hg
      rw [hg]
    · rw [if_neg hq]
      have hq' : qexists edges u v = false := by simpa using hq
      rw [hq'] at hs
      exact Option.not_isSome_iff_eq_none.mp (by simp [hs])
  · rw [hc3, h0d, Bool.false_or]
  · rw [hc4, h0wd]
    cases hb : bfirstW edges u v <;> simp [Option.orElse]

/-- Full characterization of the node sets of both built views. -/
theorem build_graphs_mem_nodes {nodes : List RawNode} {edges : List RawEdge}
    {r : UGraph × DGraph × NodeMap} (h : build_graphs nodes edges = .ok r)
    (x : String) :
    (x ∈ r.1.nodes ↔
      (∃ n ∈ nodes, n.id = some x) ∨ ∃ e ∈ edges, qualU e = true ∧ touches e x)
    ∧ (x ∈ r.2.1.nodes ↔
      (∃ n ∈ nodes, n.id = some x) ∨ ∃ e ∈ edges, isBip e = true ∧ touches e x)
    := by
  obtain ⟨st0, han, hae, -⟩ := build_graphs_ok_parts h
  obtain ⟨he1, he2⟩ := addNodesLoop_edges han
  have hcu : closedU st0.1 := by
    intro t ht
    rw [he1] at ht
    simp [emptyU] at ht
  have hcd : closedD st0.2.1 := by
    intro t ht
    rw [he2] at ht
    simp [emptyD] at ht
  obtain ⟨hm1, hm2⟩ := addNodesLoop_mem han x
  obtain ⟨hn1, hn2⟩ := addEdgesLoop_nodes hae hcu hcd x
  have hemptyU : x ∈ emptyU.nodes ↔ False := by simp [emptyU]
  have hemptyD : x ∈ emptyD.nodes ↔ False := by simp [emptyD]
  constructor
  · rw [hn1, hm1, hemptyU, false_or]
  · rw [hn2, hm2, hemptyD, false_or]

theorem qexists_perm {edges edges' : List RawEdge}
    (hp : edges'.Perm edges) (u v : String) :
    qexists edges' u v = qexists edges u v := by
  by_cases h : qexists edges u v = true
  · rw [h]
    rw [qexists, List.any_eq_true] at h ⊢
    obtain ⟨e, he, hpe⟩ := h
    exact ⟨e, hp.mem_iff.mpr he, hpe⟩
  · have hf : qexists edges u v = false := by simpa using h
    rw [hf]
    have hf' : ¬ qexists edges' u v = true := by
      rw [qexists, List.any_eq_true]
      rintro ⟨e, he, hpe⟩
      exact h (by rw [qexists, List.any_eq_true]; exact ⟨e, hp.mem_iff.mp he, hpe⟩)
    simpa using hf'

theorem qweight_perm {edges edges' : List RawEdge}
    (hp : edges'.Perm edges) (u v : String) :
    qweight edges' u v = qweight edges u v := by
  unfold qweight
  exact List.Perm.sum_eq (List.Perm.map _ (hp.filter _))

/-! The claim theorems about the graph builder. -/

/-- C1 (amended): the node set of the undirected view consists of exactly
the declared node ids together with the endpoints of qualifying
(bipartite/coedit) input edges, and the node set of the directed view of
the declared ids together with the endpoints of bipartite input edges; in
particular every declared node appears in both views even with zero
incident edges, but an edge whose source or target was not declared DOES
implicitly create that node in the views the edge qualifies for. -/
theorem build_graphs_node_sets {nodes : List RawNode} {edges : List RawEdge}
    {r : UGraph × DGraph × NodeMap} (h : build_graphs nodes edges = .ok r) :
    (∀ x, x ∈ r.1.nodes ↔
      (∃ n ∈ nodes, n.id = some x) ∨ ∃ e ∈ edges, qualU e = true ∧ touches e x)
    ∧ (∀ x, x ∈ r.2.1.nodes ↔
      (∃ n ∈ nodes, n.id = some x) ∨ ∃ e ∈ edges, isBip e = true ∧ touches e x)
    ∧ (∀ x, (∃ n ∈ nodes, n.id = some x) →
        x ∈ r.1.nodes ∧ x ∈ r.2.1.nodes) := by
  refine ⟨fun x => (build_graphs_mem_nodes h x).1,
    fun x => (build_graphs_mem_nodes h x).2, fun x hx => ?_⟩
  exact ⟨(build_graphs_mem_nodes h x).1.mpr (Or.inl hx),
    (build_graphs_mem_nodes h x).2.mpr (Or.inl hx)⟩

instance {ε α : Type} [DecidableEq ε] [DecidableEq α] :
    DecidableEq (Except ε α) := fun x y =>
  match x, y with
  | .ok a, .ok b =>
    if h : a = b then isTrue (by rw [h])
    else isFalse (by intro hc; cases hc; exact h rfl)
  | .error a, .error b =>
    if h : a = b then isTrue (by rw [h])
    else isFalse (by intro hc; cases hc; exact h rfl)
  | .ok _, .error _ => isFalse (by intro hc; cases hc)
  | .error _, .ok _ => isFalse (by intro hc; cases hc)

def cxNodes : List RawNode := [⟨some "a", none, none, none⟩]
def cxEdges : List RawEdge := [⟨some "a", some "b", none, some "bipartite"⟩]

/-- C1 counterexample: with one declared node "a" and one bipartite edge
from "a" to the undeclared id "b", the builder succeeds and "b" is a node
of both views although it was never declared: implicit node creation IS
performed, contradicting the claim that the node sets of the views equal
exactly the declared node set. -/
theorem build_graphs_implicit_creation :
    ∃ r, build_graphs cxNodes cxEdges = .ok r
      ∧ "b" ∈ r.1.nodes ∧ "b" ∈ r.2.1.nodes
      ∧ ¬ ∃ n ∈ cxNodes, n.id = some "b" := by
  refine ⟨(⟨["a", "b"], [("a", "b", 1)]⟩, ⟨["a", "b"],
    [("a", "b", 1), ("b", "a", 1)]⟩,
    [("a", ⟨some "a", none, none, none⟩)]), ?_, ?_, ?_, ?_⟩ <;> decide

/-- C3: an undirected edge between u and v exists iff some qualifying
(bipartite or coedit) input edge connects them; its stored weight is the
sum of the weights (default 1) of all such input edges; and the stored
weight is independent of the order of the input edge list. -/
theorem undirected_weight_spec {nodes : List RawNode} {edges : List RawEdge}
    {r : UGraph × DGraph × NodeMap} (h : build_graphs nodes edges = .ok r)
    (u v : String) :
    hasEdgeU r.1 u v = qexists edges u v
    ∧ (hasEdgeU r.1 u v = true → weightU r.1 u v = some (qweight edges u v))
    ∧ (∀ (edges' : List RawEdge) (r' : UGraph × DGraph × NodeMap),
        edges'.Perm edges → build_graphs nodes edges' = .ok r' →
        weightU r'.1 u v = weightU r.1 u v) := by
  obtain ⟨hc1, hc2, -, -⟩ := build_graphs_edge_char h u v
  refine ⟨hc1, ?_, ?_⟩
  · intro hh
    rw [hc2, if_pos (hc1 ▸ hh)]
  · intro edges' r' hp h'
    obtain ⟨hc1', hc2', -, -⟩ := build_graphs_edge_char h' u v
    rw [hc2, hc2', qexists_perm hp, qweight_perm hp]

/-- C4: a directed edge (u, v) exists iff some bipartite input edge
connects u and v in either direction (so never for coedit-only or
unknown-view pairs), and its weight is the weight of the FIRST bipartite
input edge connecting the pair, later duplicates being no-ops. -/
theorem directed_edges_spec {nodes : List RawNode} {edges : List RawEdge}
    {r : UGraph × DGraph × NodeMap} (h : build_graphs nodes edges = .ok r)
    (u v : String) :
    hasEdgeD r.2.1 u v = bexists edges u v
    ∧ weightD r.2.1 u v = bfirstW edges u v := by
  obtain ⟨-, -, hc3, hc4⟩ := build_graphs_edge_char h u v
  exact ⟨hc3, hc4⟩

/-! View-default substitution and orchestrator claims. -/

theorem addEdgesLoop_subst {e : RawEdge} (hv : e.view = none) :
    ∀ (pre post : List RawEdge) (gu : UGraph) (gd : DGraph),
      addEdgesLoop (pre ++ e :: post) gu gd =
        addEdgesLoop (pre ++ { e with view := some "bipartite" } :: post) gu gd
    := by
  obtain ⟨es, et, ew, ev⟩ := e
  cases hv
  intro pre
  induction pre with
  | nil =>
    intro post gu gd
    simp only [List.nil_append]
    cases es with
    | none => rfl
    | some src =>
      cases et with
      | none => rfl
      | some tgt => rfl
  | cons f pre ih =>
    intro post gu gd
    simp only [List.cons_append]
    cases hfs : f.source with
    | none => simp only [addEdgesLoop, hfs]
    | some src =>
      cases hft : f.target with
      | none => simp only [addEdgesLoop, hfs, hft]
      | some tgt =>
        simp only [addEdgesLoop, hfs, hft]
        exact ih post _ _

theorem build_graphs_congr {nodes : List RawNode} {l1 l2 : List RawEdge}
    (h : ∀ gu gd, addEdgesLoop l1 gu gd = addEdgesLoop l2 gu gd) :
    build_graphs nodes l1 = build_graphs nodes l2 := by
  unfold build_graphs
  cases addNodesLoop nodes emptyU emptyD [] with
  | error msg => rfl
  | ok st0 =>
    obtain ⟨gu0, gd0, nm⟩ := st0
    show (match addEdgesLoop l1 gu0 gd0 with
        | Except.error msg =>
          (Except.error msg : Except String (UGraph × DGraph × NodeMap))
        | Except.ok (gu, gd) => Except.ok (gu, gd, nm)) =
      (match addEdgesLoop l2 gu0 gd0 with
        | Except.error msg =>
          (Except.error msg : Except String (UGraph × DGraph × NodeMap))
        | Except.ok (gu, gd) => Except.ok (gu, gd, nm))
    rw [h gu0 gd0]

/-- C10: an input edge with no view field is treated exactly as a
bipartite edge: replacing the absent view tag by "bipartite" leaves the
built graphs unchanged, and a well-formed such edge yields the undirected
edge between its endpoints together with both mirrored directed edges. -/
theorem default_view_bipartite :
    (∀ (nodes : List RawNode) (pre post : List RawEdge) (e : RawEdge),
      e.view = none →
      build_graphs nodes (pre ++ e :: post) =
        build_graphs nodes (pre ++ { e with view := some "bipartite" } :: post))
    ∧ ∀ (nodes : List RawNode) (edges : List RawEdge)
        (r : UGraph × DGraph × NodeMap) (e : RawEdge) (s t : String),
        build_graphs nodes edges = .ok r → e ∈ edges → e.view = none →
        e.source = some s → e.target = some t →
        hasEdgeU r.1 s t = true ∧ hasEdgeD r.2.1 s t = true
          ∧ hasEdgeD r.2.1 t s = true := by
  constructor
  · intro nodes pre post e hv
    exact build_graphs_congr fun gu gd => addEdgesLoop_subst hv pre post gu gd
  · intro nodes edges r e s t h he hv hs ht
    obtain ⟨hc1, -, hc3, -⟩ := build_graphs_edge_char h s t
    obtain ⟨-, -, hc3', -⟩ := build_graphs_edge_char h t s
    have hq : qualU e = true := by simp [qualU, edgeView, hv]
    have hb : isBip e = true := by simp [isBip, edgeView, hv]
    have hm1 : matchesPair e s t = true := by
      rw [matchesPair_eq hs ht]
      exact pairEq_refl s t
    have hm2 : matchesPair e t s = true := by
      rw [matchesPair_eq hs ht, pairEq_iff]
      exact Or.inr ⟨rfl, rfl⟩
    refine ⟨?_, ?_, ?_⟩
    · rw [hc1, qexists, List.any_eq_true]
      exact ⟨e, he, by simp [hq, hm1]⟩
    · rw [hc3, bexists, List.any_eq_true]
      exact ⟨e, he, by simp [hb, hm1]⟩
    · rw [hc3', bexists, List.any_eq_true]
      exact ⟨e, he, by simp [hb, hm2]⟩

/-- C2: any payload with fewer than three nodes short-circuits to the
fixed zeroed/empty response, regardless of the edge list. -/
theorem analyze_short_circuit (o : MLOracles) (payload : Payload)
    (h : (payload.nodes.getD []).length < 3) :
    analyze o payload = .ok zeroResponse := by
  simp only [analyze]
  rw [if_pos h]

/-- C8: the anomaly detector returns the empty mapping on views with
fewer than five nodes, for every edge configuration, node index,
influence mapping and every clustering/forest oracle. -/
theorem detect_anomalies_small (clusteringFn : UGraph → List (String × ℚ))
    (forestFn : ℚ → List (List ℚ) → List ℤ × List ℚ) (g : UGraph)
    (nm : NodeMap) (pagerank : List (String × ℚ))
    (h : g.nodes.length < 5) :
    detect_anomalies clusteringFn forestFn g nm pagerank = [] := by
  simp only [detect_anomalies]
  rw [if_pos h]

/-- C9: a payload with at least three nodes in which some node record
lacks its id or some edge record lacks source or target makes the
analyze endpoint return a tagged error response instead of results. -/
theorem analyze_malformed_error (o : MLOracles) (payload : Payload)
    (h3 : ¬ (payload.nodes.getD []).length < 3)
    (hbad : (∃ n ∈ payload.nodes.getD [], n.id = none)
      ∨ ∃ e ∈ payload.edges.getD [], e.source = none ∨ e.target = none) :
    ∃ msg, analyze o payload = .error msg := by
  cases hb : build_graphs (payload.nodes.getD []) (payload.edges.getD []) with
  | error msg =>
    refine ⟨msg, ?_⟩
    simp only [analyze]
    rw [if_neg h3, hb]
  | ok r =>
    exfalso
    obtain ⟨hn, he⟩ := build_graphs_ok_wf hb
    rcases hbad with ⟨n, hn', hid⟩ | ⟨e, he', hbad'⟩
    · have hws := hn n hn'
      rw [hid] at hws
      simp at hws
    · obtain ⟨hs, ht⟩ := he e he'
      rcases hbad' with h1 | h1
      · rw [h1] at hs
        simp at hs
      · rw [h1] at ht
        simp at ht

/-! Concrete witnesses for the builder and orchestrator claims. -/

/-- An oracle assignment used only to instantiate theorems at concrete
inputs. -/
def defaultOracles : MLOracles :=
  ⟨fun _ => none, fun _ => none, fun _ => [], fun _ _ => ([], []), fun _ => 0⟩

/-- The concrete result of building cxNodes/cxEdges. -/
def cxRes : UGraph × DGraph × NodeMap :=
  (⟨["a", "b"], [("a", "b", 1)]⟩,
   ⟨["a", "b"], [("a", "b", 1), ("b", "a", 1)]⟩,
   [("a", ⟨some "a", none, none, none⟩)])

/-- C1 witness: the amended node-set characterization applied to the
concrete counterexample input. -/
theorem build_graphs_node_sets_witness :
    "a" ∈ cxRes.1.nodes ∧ "a" ∈ cxRes.2.1.nodes :=
  (build_graphs_node_sets
    (show build_graphs cxNodes cxEdges = .ok cxRes by decide)).2.2
    "a" ⟨⟨some "a", none, none, none⟩, by decide, rfl⟩

def wNodes : List RawNode :=
  [⟨some "a", none, none, none⟩, ⟨some "b", none, none, none⟩]

def wEdges : List RawEdge :=
  [⟨some "a", some "b", none, some "coedit"⟩,
   ⟨some "a", some "b", none, some "bipartite"⟩]

/-- The concrete result of building wNodes/wEdges. -/
def wRes : UGraph × DGraph × NodeMap :=
  (⟨["a", "b"], [("a", "b", 1 + 1)]⟩,
   ⟨["a", "b"], [("a", "b", 1), ("b", "a", 1)]⟩,
   [("a", ⟨some "a", none, none, none⟩), ("b", ⟨some "b", none, none, none⟩)])

/-- C3 witness: the weight characterization applied to a concrete input
with one coedit and one bipartite edge between the same pair. -/
theorem undirected_weight_spec_witness :
    hasEdgeU wRes.1 "a" "b" = qexists wEdges "a" "b"
    ∧ weightU wRes.1 "a" "b" = some (qweight wEdges "a" "b") :=
  have hb : build_graphs wNodes wEdges = .ok wRes := rfl
  ⟨(undirected_weight_spec hb "a" "b").1,
   (undirected_weight_spec hb "a" "b").2.1 (by decide)⟩

/-- C4 witness: the directed characterization applied to the same
concrete input. -/
theorem directed_edges_spec_witness :
    hasEdgeD wRes.2.1 "b" "a" = bexists wEdges "b" "a"
    ∧ weightD wRes.2.1 "a" "b" = bfirstW wEdges "a" "b" :=
  have hb : build_graphs wNodes wEdges = .ok wRes := rfl
  ⟨(directed_edges_spec hb "b" "a").1, (directed_edges_spec hb "a" "b").2⟩

/-- C10 witness: substituting the default view tag on a concrete edge
record, and the concrete membership consequences. -/
theorem default_view_bipartite_witness :
    (build_graphs cxNodes [⟨some "a", some "b", none, none⟩] =
      build_graphs cxNodes [⟨some "a", some "b", none, some "bipartite"⟩])
    ∧ hasEdgeU cxRes.1 "a" "b" = true ∧ hasEdgeD cxRes.2.1 "a" "b" = true
      ∧ hasEdgeD cxRes.2.1 "b" "a" = true := by
  constructor
  · exact default_view_bipartite.1 cxNodes [] []
      ⟨some "a", some "b", none, none⟩ rfl
  · exact default_view_bipartite.2 cxNodes
      [⟨some "a", some "b", none, none⟩] cxRes
      ⟨some "a", some "b", none, none⟩ "a" "b" (by decide) (by decide)
      rfl rfl rfl

/-- C2 witness: the empty payload short-circuits to the zero response. -/
theorem analyze_short_circuit_witness :
    analyze defaultOracles ⟨none, none⟩ = .ok zeroResponse :=
  analyze_short_circuit defaultOracles ⟨none, none⟩ (by decide)

/-- C8 witness: a one-node view yields the empty anomaly mapping. -/
theorem detect_anomalies_small_witness :
    detect_anomalies (fun _ => []) (fun _ _ => ([], []))
      ⟨["a"], []⟩ [] [] = [] :=
  detect_anomalies_small _ _ _ _ _ (by decide)

/-- C9 witness: three nodes, one of which lacks its id, produce an error
response. -/
theorem analyze_malformed_error_witness :
    ∃ msg, analyze defaultOracles
      ⟨some [⟨some "a", none, none, none⟩, ⟨some "b", none, none, none⟩,
        ⟨none, none, none, none⟩], none⟩ = .error msg :=
  analyze_malformed_error defaultOracles _ (by decide)
    (Or.inl ⟨⟨none, none, none, none⟩, by decide, rfl⟩)

/-! Influence-score normalization (C6). -/

theorem foldl_max_le_self (xs : List ℚ) (a : ℚ) : a ≤ xs.foldl max a := by
  induction xs generalizing a with
  | nil => exact le_refl a
  | cons y ys ih => exact le_trans (le_max_left a y) (ih (max a y))

theorem foldl_max_le_of_mem {xs : List ℚ} {x : ℚ} (hx : x ∈ xs) (a : ℚ) :
    x ≤ xs.foldl max a := by
  induction xs generalizing a with
  | nil => cases hx
  | cons y ys ih =>
    rcases List.mem_cons.mp hx with rfl | hx
    · exact le_trans (le_max_right a x) (foldl_max_le_self ys (max a x))
    · exact ih hx (max a y)

theorem foldl_max_mem (xs : List ℚ) (a : ℚ) :
    xs.foldl max a = a ∨ xs.foldl max a ∈ xs := by
  induction xs generalizing a with
  | nil => exact Or.inl rfl
  | cons y ys ih =>
    rcases ih (max a y) with h | h
    · rcases max_choice a y with hm | hm
      · exact Or.inl (by rw [List.foldl_cons, h, hm])
      · exact Or.inr (by rw [List.foldl_cons, h, hm]; exact List.mem_cons_self _ _)
    · exact Or.inr (List.mem_cons_of_mem _ h)

theorem le_listMax {l : List ℚ} {x : ℚ} (hx : x ∈ l) : x ≤ listMax l := by
  cases l with
  | nil => cases hx
  | cons y ys =>
    rcases List.mem_cons.mp hx with rfl | hx
    · exact foldl_max_le_self ys x
    · exact foldl_max_le_of_mem hx y

theorem listMax_mem {l : List ℚ} (h : l ≠ []) : listMax l ∈ l := by
  cases l with
  | nil => exact absurd rfl h
  | cons y ys =>
    rcases foldl_max_mem ys y with h1 | h1
    · rw [listMax, h1]
      exact List.mem_cons_self _ _
    · exact List.mem_cons_of_mem _ h1

/-- C6: the influence scorer returns values in the unit interval; for a
non-empty directed view whose raw scores are not all zero the value 1 is
attained (so the maximum equals exactly 1); on internal failure of the
iterative algorithm every node scores 0; and an empty view yields the
empty mapping.  The nx.pagerank oracle is assumed to return nonnegative
scores keyed by exactly the view's nodes. -/
theorem compute_pagerank_spec (pagerankFn : DGraph → Option (List (String × ℚ)))
    (gd : DGraph)
    (hpos : ∀ pr, pagerankFn gd = some pr → ∀ p ∈ pr, 0 ≤ p.2) :
    (∀ p ∈ compute_pagerank pagerankFn gd, 0 ≤ p.2 ∧ p.2 ≤ 1)
    ∧ (∀ pr, gd.nodes ≠ [] → pagerankFn gd = some pr →
        (∃ p ∈ pr, p.2 ≠ 0) →
        ∃ q ∈ compute_pagerank pagerankFn gd, q.2 = 1)
    ∧ (pagerankFn gd = none → ∀ p ∈ compute_pagerank pagerankFn gd, p.2 = 0)
    ∧ (gd.nodes = [] → compute_pagerank pagerankFn gd = []) := by
  refine ⟨?_, ?_, ?_, ?_⟩
  · intro p hp
    by_cases hlen : gd.nodes.length = 0
    · rw [compute_pagerank, if_pos hlen] at hp
      cases hp
    · rw [compute_pagerank, if_neg hlen] at hp
      cases hpr : pagerankFn gd with
      | none =>
        rw [hpr] at hp
        obtain ⟨n, -, hpn⟩ := List.mem_map.mp hp
        rw [← hpn]
        norm_num
      | some pr =>
        simp only [hpr] at hp
        have hposs := hpos pr hpr
        by_cases hM : 0 < (if pr.isEmpty then 1
            else listMax (pr.map fun p => p.2))
        · rw [if_pos hM] at hp
          obtain ⟨q, hq, hqp⟩ := List.mem_map.mp hp
          have hqe : pr.isEmpty = false := by
            cases pr with
            | nil => cases hq
            | cons _ _ => rfl
          rw [hqe] at hM hqp
          simp only [Bool.false_eq_true, if_false] at hM hqp
          have h1 : 0 ≤ q.2 := hposs q hq
          have h2 : q.2 ≤ listMax (pr.map fun p => p.2) :=
            le_listMax (List.mem_map_of_mem _ hq)
          rw [← hqp]
          constructor
          · exact div_nonneg h1 (le_of_lt hM)
          · exact (div_le_one hM).mpr h2
        · rw [if_neg hM] at hp
          have hqe : pr.isEmpty = false := by
            cases pr with
            | nil => cases hp
            | cons _ _ => rfl
          rw [hqe] at hM
          simp only [Bool.false_eq_true, if_false] at hM
          have h1 : 0 ≤ p.2 := hposs p hp
          have h2 : p.2 ≤ listMax (pr.map fun p => p.2) :=
            le_listMax (List.mem_map_of_mem _ hp)
          exact ⟨h1, le_trans h2 (le_trans (le_of_not_lt hM) (by norm_num))⟩
  · intro pr hne hpr ⟨p0, hp0, hp0ne⟩
    have hlen : ¬ gd.nodes.length = 0 := fun hc => hne (List.length_eq_zero.mp hc)
    have hqe : pr.isEmpty = false := by
      cases pr with
      | nil => cases hp0
      | cons _ _ => rfl
    have hM : 0 < listMax (pr.map fun p => p.2) := by
      have h1 : 0 ≤ p0.2 := hpos pr hpr p0 hp0
      have h2 : p0.2 ≤ listMax (pr.map fun p => p.2) :=
        le_listMax (List.mem_map_of_mem _ hp0)
      rcases lt_or_eq_of_le h1 with h | h
      · exact lt_of_lt_of_le h h2
      · exact absurd h.symm hp0ne
    have hMne : pr.map (fun p => p.2) ≠ [] := by
      cases pr with
      | nil => cases hp0
      | cons _ _ => simp
    obtain ⟨q, hq, hqmax⟩ := List.mem_map.mp (listMax_mem hMne)
    refine ⟨(q.1, q.2 / listMax (pr.map fun p => p.2)), ?_, ?_⟩
    · rw [compute_pagerank, if_neg hlen]
      simp only [hpr, hqe, Bool.false_eq_true, if_false]
      rw [if_pos hM]
      exact List.mem_map_of_mem _ hq
    · show q.2 / listMax (pr.map fun p => p.2) = 1
      rw [hqmax]
      exact div_self (ne_of_gt hM)
  · intro hnone p hp
    by_cases hlen : gd.nodes.length = 0
    · rw [compute_pagerank, if_pos hlen] at hp
      cases hp
    · rw [compute_pagerank, if_neg hlen, hnone] at hp
      obtain ⟨n, -, hpn⟩ := List.mem_map.mp hp
      rw [← hpn]
  · intro hnil
    rw [compute_pagerank, if_pos (by rw [hnil]; rfl)]

/-- C6 witness: a concrete two-node view with raw scores 2 and 1 attains
normalized maximum 1 and all values lie in the unit interval. -/
theorem compute_pagerank_spec_witness :
    (∀ p ∈ compute_pagerank (fun _ => some [("a", 2), ("b", 1)])
      (⟨["a", "b"], [("a", "b", 1), ("b", "a", 1)]⟩ : DGraph),
      0 ≤ p.2 ∧ p.2 ≤ 1)
    ∧ ∃ q ∈ compute_pagerank (fun _ => some [("a", 2), ("b", 1)])
      (⟨["a", "b"], [("a", "b", 1), ("b", "a", 1)]⟩ : DGraph), q.2 = 1 := by
  have hpos : ∀ pr,
      (fun _ : DGraph => some [("a", (2 : ℚ)), ("b", 1)])
        (⟨["a", "b"], [("a", "b", 1), ("b", "a", 1)]⟩ : DGraph) = some pr →
      ∀ p ∈ pr, 0 ≤ p.2 := by
    intro pr h p hp
    injection h with h'
    subst h'
    rcases List.mem_cons.mp hp with rfl | hp
    · norm_num
    · rcases List.mem_cons.mp hp with rfl | hp
      · norm_num
      · cases hp
  refine ⟨(compute_pagerank_spec _ _ hpos).1, ?_⟩
  exact (compute_pagerank_spec _ _ hpos).2.1 [("a", 2), ("b", 1)]
    (by simp) rfl ⟨("a", 2), List.mem_cons_self _ _, by norm_num⟩

/-! Hub detection (C7). -/

theorem pairwise_of_length_le_one {α : Type} {R : α → α → Prop}
    {l : List α} (h : l.length ≤ 1) : l.Pairwise R := by
  cases l with
  | nil => exact List.Pairwise.nil
  | cons x xs =>
    cases xs with
    | nil => simp
    | cons y ys => simp at h

theorem degree_centrality_length (g : UGraph) :
    (degree_centrality g).length = g.nodes.length := by
  unfold degree_centrality
  split <;> simp

theorem degree_centrality_mem {g : UGraph} {p : String × ℚ}
    (hp : p ∈ degree_centrality g) :
    p.1 ∈ g.nodes ∧ p.2 =
      (if g.nodes.length ≤ 1 then 1
       else (degreeU g p.1 : ℚ) / ((g.nodes.length : ℚ) - 1)) := by
  unfold degree_centrality at hp
  by_cases h : g.nodes.length ≤ 1
  · rw [if_pos h] at hp ⊢
    obtain ⟨n, hn, rfl⟩ := List.mem_map.mp hp
    exact ⟨hn, rfl⟩
  · rw [if_neg h] at hp ⊢
    obtain ⟨n, hn, rfl⟩ := List.mem_map.mp hp
    exact ⟨hn, rfl⟩

/-- C7: the hub list is empty exactly on the empty view; on a non-empty
view its length is max(1, ceil(10% of the node count)); it is sorted
non-increasing by degree; and every entry carries the node's raw degree
and its label resolved from the node index. -/
theorem detect_hubs_spec (g : UGraph) (nm : NodeMap) :
    (g.nodes.length = 0 → detect_hubs g nm = [])
    ∧ (1 ≤ g.nodes.length →
        (detect_hubs g nm).length =
          max 1 (Nat.ceil ((g.nodes.length : ℚ) * 0.1)))
    ∧ (detect_hubs g nm).Pairwise (fun a b => b.degree ≤ a.degree)
    ∧ (∀ hb ∈ detect_hubs g nm,
        hb.degree = degreeU g hb.id ∧ hb.label = labelOf nm hb.id
          ∧ hb.id ∈ g.nodes) := by
  by_cases h0 : g.nodes.length = 0
  · rw [detect_hubs, if_pos h0]
    refine ⟨fun _ => rfl, fun h1 => by omega, List.Pairwise.nil, ?_⟩
    intro hb hhb
    cases hhb
  · have hresult : detect_hubs g nm =
        (((degree_centrality g).mergeSort fun a b => decide (b.2 ≤ a.2)).take
          (max 1 (Nat.ceil
            ((((degree_centrality g).mergeSort
                fun a b => decide (b.2 ≤ a.2)).length : ℚ) * 0.1)))).map
          fun p => { id := p.1, label := labelOf nm p.1,
                     degree := degreeU g p.1 } := by
      rw [detect_hubs, if_neg h0]
    have hsn_len : ((degree_centrality g).mergeSort
        fun a b => decide (b.2 ≤ a.2)).length = g.nodes.length := by
      rw [List.length_mergeSort, degree_centrality_length]
    have hn1 : 1 ≤ g.nodes.length := Nat.one_le_iff_ne_zero.mpr h0
    have hhc_le : max 1 (Nat.ceil ((g.nodes.length : ℚ) * 0.1)) ≤
        g.nodes.length := by
      refine max_le hn1 ?_
      rw [Nat.ceil_le]
      calc (g.nodes.length : ℚ) * 0.1 ≤ (g.nodes.length : ℚ) * 1 := by
            refine mul_le_mul_of_nonneg_left (by norm_num) ?_
            exact Nat.cast_nonneg _
        _ = (g.nodes.length : ℚ) := mul_one _
    have hmem_sn : ∀ p ∈ (degree_centrality g).mergeSort
        fun a b => decide (b.2 ≤ a.2), p ∈ degree_centrality g := by
      intro p hp
      exact List.mem_mergeSort.mp hp
    refine ⟨fun hc => absurd hc h0, ?_, ?_, ?_⟩
    · intro h1
      rw [hresult, List.length_map, List.length_take, hsn_len]
      exact min_eq_left hhc_le
    · rw [hresult, List.pairwise_map]
      by_cases hle1 : g.nodes.length ≤ 1
      · refine pairwise_of_length_le_one ?_
        rw [List.length_take, hsn_len]
        exact le_trans (min_le_right _ _) hle1
      · have hsorted : ((degree_centrality g).mergeSort
            fun a b => decide (b.2 ≤ a.2)).Pairwise
              fun a b => decide (b.2 ≤ a.2) = true := by
          refine List.sorted_mergeSort ?_ ?_ _
          · intro a b c hab hbc
            simp only [decide_eq_true_eq] at hab hbc ⊢
            exact le_trans hbc hab
          · intro a b
            simp only [Bool.or_eq_true, decide_eq_true_eq]
            exact le_total b.2 a.2
        refine (hsorted.sublist (List.take_sublist _ _)).imp_of_mem ?_
        intro a b ha hb hab
        have ha' := degree_centrality_mem
          (hmem_sn a ((List.take_sublist _ _).subset ha))
        have hb' := degree_centrality_mem
          (hmem_sn b ((List.take_sublist _ _).subset hb))
        rw [if_neg hle1] at ha' hb'
        simp only [decide_eq_true_eq] at hab
        rw [ha'.2, hb'.2] at hab
        have hpos : (0 : ℚ) < (g.nodes.length : ℚ) - 1 := by
          have h2 : 2 ≤ g.nodes.length := by omega
          have : (2 : ℚ) ≤ (g.nodes.length : ℚ) := by exact_mod_cast h2
          linarith
        have := (div_le_div_iff_of_pos_right hpos).mp hab
        exact_mod_cast this
    · intro hb hhb
      rw [hresult] at hhb
      obtain ⟨p, hpt, rfl⟩ := List.mem_map.mp hhb
      refine ⟨rfl, rfl, ?_⟩
      exact (degree_centrality_mem
        (hmem_sn p ((List.take_sublist _ _).subset hpt))).1

/-- C7 witness: the length formula applied to a concrete three-node
view. -/
theorem detect_hubs_spec_witness :
    (detect_hubs (⟨["a", "b", "c"], [("a", "b", 1)]⟩ : UGraph) []).length =
      max 1 (Nat.ceil
        ((((⟨["a", "b", "c"], [("a", "b", 1)]⟩ : UGraph)).nodes.length : ℚ)
          * 0.1)) :=
  (detect_hubs_spec (⟨["a", "b", "c"], [("a", "b", 1)]⟩ : UGraph) []).2.1
    (by decide)

/-! Community detection (C5). -/

theorem lookupD_map_const {ns : List String} {x : String} {c : ℕ}
    (hx : x ∈ ns) : lookupD (ns.map fun n => (n, c)) x = some c := by
  induction ns with
  | nil => cases hx
  | cons n rest ih =>
    by_cases h : n = x
    · simp [lookupD, h]
    · rcases List.mem_cons.mp hx with rfl | hx'
      · exact absurd rfl h
      · simp only [List.map_cons, lookupD, if_neg h]
        exact ih hx'

theorem foldl_insertD_fresh :
    ∀ (pairs : List (String × ℕ)) (m : List (String × ℕ)),
      (∀ k ∈ pairs.map Prod.fst, lookupD m k = none) →
      (pairs.map Prod.fst).Nodup →
      pairs.foldl (fun m q => insertD m q.1 q.2) m = m ++ pairs := by
  intro pairs
  induction pairs with
  | nil => exact fun m _ _ => (List.append_nil m).symm
  | cons q rest ih =>
    intro m hfresh hnd
    obtain ⟨k, v⟩ := q
    have hk : lookupD m k = none := hfresh k (by simp)
    have hstep : insertD m k v = m ++ [(k, v)] := insertD_of_lookup_none hk v
    simp only [List.foldl_cons, hstep]
    rw [ih (m ++ [(k, v)]) ?_ ?_]
    · rw [List.append_assoc]
      rfl
    · intro k' hk'
      rw [lookupD_append]
      have h1 : lookupD m k' = none := hfresh k' (by simp [hk'])
      have hke : ¬ k = k' := by
        simp only [List.map_cons, List.nodup_cons] at hnd
        intro hc
        exact hnd.1 (hc ▸ hk')
      rw [h1]
      simp [lookupD, hke]
    · simp only [List.map_cons, List.nodup_cons] at hnd
      exact hnd.2

theorem dictOfPairs_eq {pairs : List (String × ℕ)}
    (hnd : (pairs.map Prod.fst).Nodup) : dictOfPairs pairs = pairs := by
  rw [dictOfPairs, foldl_insertD_fresh pairs [] (fun k _ => rfl) hnd]
  rfl

theorem commPairs_keys (cl : List (List String)) :
    (commPairs cl).map Prod.fst = cl.flatten := by
  rw [commPairs, List.map_flatten, List.map_map]
  have h2 : (List.map Prod.fst ∘ fun p : ℕ × List String =>
      p.2.map fun n => (n, p.1)) = Prod.snd := by
    funext p
    show (p.2.map fun n => (n, p.1)).map Prod.fst = p.2
    rw [List.map_map]
    exact List.map_id _
  rw [h2]
  simp

theorem commPairs_label_lt {cl : List (List String)} {x : String} {i : ℕ}
    (h : (x, i) ∈ commPairs cl) : i < cl.length := by
  simp only [commPairs, List.mem_flatten] at h
  obtain ⟨l, hl, hxl⟩ := h
  obtain ⟨p, hp, rfl⟩ := List.mem_map.mp hl
  obtain ⟨n, hn, heq⟩ := List.mem_map.mp hxl
  injection heq with h1 h2
  subst h2
  exact List.fst_lt_of_mem_enum hp

theorem mem_commPairs_of_mem {cl : List (List String)} {x : String}
    (h : x ∈ cl.flatten) : ∃ i, (x, i) ∈ commPairs cl ∧ i < cl.length := by
  obtain ⟨comm, hcomm, hx⟩ := List.mem_flatten.mp h
  obtain ⟨⟨j, hj⟩, hget⟩ := List.mem_iff_get.mp hcomm
  refine ⟨j, ?_, hj⟩
  simp only [commPairs, List.mem_flatten]
  refine ⟨comm.map fun n => (n, j), ?_, List.mem_map_of_mem _ hx⟩
  refine List.mem_map.mpr ⟨(j, comm), ?_, rfl⟩
  rw [List.mem_enum_iff_getElem?]
  show cl[j]? = some comm
  rw [List.getElem?_eq_getElem hj]
  rw [← hget]
  rfl

theorem lookupD_mem_of_nodup :
    ∀ {l : List (String × ℕ)}, (l.map Prod.fst).Nodup →
      ∀ {k : String} {v : ℕ}, (k, v) ∈ l → lookupD l k = some v := by
  intro l
  induction l with
  | nil =>
    intro _ k v h
    cases h
  | cons p rest ih =>
    intro hnd k v h
    obtain ⟨k', v'⟩ := p
    simp only [List.map_cons, List.nodup_cons] at hnd
    rcases List.mem_cons.mp h with heq | hmem
    · injection heq with h1 h2
      subst h1
      subst h2
      simp [lookupD]
    · have hne : ¬ k' = k := by
        intro hc
        subst hc
        exact hnd.1 (List.mem_map_of_mem Prod.fst hmem)
      simp only [lookupD, if_neg hne]
      exact ih hnd.2 hmem

theorem addMissing_cons (m : List (String × ℕ)) (n : String)
    (ns : List String) (next : ℕ) :
    addMissing m (n :: ns) next =
      addMissing (if (lookupD m n).isSome then m else insertD m n next) ns next
    := rfl

theorem addMissing_eq_append :
    ∀ (ns : List String) (m : List (String × ℕ)) (next : ℕ), ns.Nodup →
      addMissing m ns next =
        m ++ (ns.filter fun n => decide (lookupD m n = none)).map
          fun n => (n, next) := by
  intro ns
  induction ns with
  | nil => exact fun m next _ => (List.append_nil m).symm
  | cons n rest ih =>
    intro m next hnd
    simp only [List.nodup_cons] at hnd
    rw [addMissing_cons]
    by_cases hsome : (lookupD m n).isSome = true
    · rw [if_pos hsome, ih m next hnd.2]
      have hcond : decide (lookupD m n = none) = false := by
        simp only [decide_eq_false_iff_not]
        intro hc
        rw [hc] at hsome
        cases hsome
      rw [List.filter_cons, hcond]
      simp
    · have hnone : lookupD m n = none := by
        cases hl : lookupD m n with
        | none => rfl
        | some v => rw [hl] at hsome; exact absurd rfl hsome
      rw [if_neg hsome, insertD_of_lookup_none hnone next,
        ih (m ++ [(n, next)]) next hnd.2]
      have hfc : rest.filter (fun k => decide (lookupD (m ++ [(n, next)]) k = none))
          = rest.filter fun k => decide (lookupD m k = none) := by
        refine List.filter_congr ?_
        intro k hk
        have hkn : ¬ n = k := fun hc => hnd.1 (hc ▸ hk)
        rw [lookupD_append]
        have h2 : lookupD [(n, next)] k = none := by
          simp [lookupD, hkn]
        rw [h2]
        cases hl : lookupD m k <;> simp [Option.orElse]
      rw [hfc, List.filter_cons]
      have hcond : decide (lookupD m n = none) = true := by
        simp [hnone]
      rw [hcond]
      simp only [if_true]
      rw [List.map_cons, List.append_assoc]
      rfl

theorem connectedNodes_mem {g : UGraph} {x : String} :
    x ∈ connectedNodes g ↔ x ∈ g.nodes ∧ 0 < degreeU g x := by
  simp [connectedNodes, List.mem_filter]

theorem detect_communities_small {louvain : UGraph → Option (List (List String))}
    {g : UGraph} (h : g.nodes.length < 2) :
    detect_communities louvain g = g.nodes.map fun n => (n, 0) := by
  rw [detect_communities, if_pos h]

theorem detect_communities_small2
    {louvain : UGraph → Option (List (List String))} {g : UGraph}
    (h2 : ¬ g.nodes.length < 2) (hc : (connectedNodes g).length < 2) :
    detect_communities louvain g = g.nodes.map fun n => (n, 0) := by
  rw [detect_communities, if_neg h2]
  simp only [if_pos hc]

theorem detect_communities_fallback
    {louvain : UGraph → Option (List (List String))} {g : UGraph}
    (h2 : ¬ g.nodes.length < 2) (hc2 : ¬ (connectedNodes g).length < 2)
    (hn : louvain (subgraphU g (connectedNodes g)) = none) :
    detect_communities louvain g = g.nodes.enum.map fun p => (p.2, p.1) := by
  rw [detect_communities, if_neg h2]
  simp only [if_neg hc2, hn]

theorem detect_communities_success
    {louvain : UGraph → Option (List (List String))} {g : UGraph}
    {cl : List (List String)}
    (h2 : ¬ g.nodes.length < 2) (hc2 : ¬ (connectedNodes g).length < 2)
    (hlv : louvain (subgraphU g (connectedNodes g)) = some cl) :
    detect_communities louvain g =
      addMissing (dictOfPairs (commPairs cl)) g.nodes cl.length := by
  rw [detect_communities, if_neg h2]
  simp only [if_neg hc2, hlv]

/-- C5: the community mapping assigns exactly one label to every node of
the view (its keys are exactly the nodes, without duplicates); when the
view is not tiny and Louvain succeeds with a partition of the non-isolated
nodes, every isolated node receives the shared catch-all label equal to
the number of detected communities while every non-isolated node receives
some smaller (hence distinct) label; and on views with fewer than two
nodes or fewer than two non-isolated nodes every node is labelled 0. -/
theorem detect_communities_spec
    (louvain : UGraph → Option (List (List String))) (g : UGraph)
    (hnd : g.nodes.Nodup)
    (hl : ∀ cl, louvain (subgraphU g (connectedNodes g)) = some cl →
        cl.flatten.Perm (connectedNodes g)) :
    (∀ x, (lookupD (detect_communities louvain g) x).isSome = true ↔
      x ∈ g.nodes)
    ∧ ((detect_communities louvain g).map Prod.fst).Nodup
    ∧ (∀ cl, ¬ g.nodes.length < 2 → ¬ (connectedNodes g).length < 2 →
        louvain (subgraphU g (connectedNodes g)) = some cl →
        (∀ x ∈ g.nodes, degreeU g x = 0 →
          lookupD (detect_communities louvain g) x = some cl.length)
        ∧ ∀ x ∈ g.nodes, degreeU g x ≠ 0 →
          ∃ i, i < cl.length ∧
            lookupD (detect_communities louvain g) x = some i)
    ∧ ((g.nodes.length < 2 ∨ (connectedNodes g).length < 2) →
        ∀ x ∈ g.nodes, lookupD (detect_communities louvain g) x = some 0)
    := by
  by_cases hb2 : g.nodes.length < 2
  · have hres := @detect_communities_small louvain g hb2
    have hkeys : (detect_communities louvain g).map Prod.fst = g.nodes := by
      rw [hres, List.map_map]
      exact List.map_id _
    refine ⟨?_, ?_, ?_, ?_⟩
    · intro x
      rw [lookupD_isSome, hkeys]
    · rw [hkeys]
      exact hnd
    · intro cl hb2' _ _
      exact absurd hb2 hb2'
    · intro _ x hx
      rw [hres]
      exact lookupD_map_const hx
  · by_cases hc2 : (connectedNodes g).length < 2
    · have hres := @detect_communities_small2 louvain g hb2 hc2
      have hkeys : (detect_communities louvain g).map Prod.fst = g.nodes := by
        rw [hres, List.map_map]
        exact List.map_id _
      refine ⟨?_, ?_, ?_, ?_⟩
      · intro x
        rw [lookupD_isSome, hkeys]
      · rw [hkeys]
        exact hnd
      · intro cl _ hc2' _
        exact absurd hc2 hc2'
      · intro _ x hx
        rw [hres]
        exact lookupD_map_const hx
    · cases hlv : louvain (subgraphU g (connectedNodes g)) with
      | none =>
        have hres := detect_communities_fallback hb2 hc2 hlv
        have hkeys : (detect_communities louvain g).map Prod.fst = g.nodes := by
          rw [hres, List.map_map]
          have hcomp : (Prod.fst ∘ fun p : ℕ × String => (p.2, p.1)) =
              Prod.snd := rfl
          rw [hcomp]
          simp
        refine ⟨?_, ?_, ?_, ?_⟩
        · intro x
          rw [lookupD_isSome, hkeys]
        · rw [hkeys]
          exact hnd
        · intro cl _ _ hcl
          exact (Option.noConfusion hcl)
        · rintro (h | h)
          · exact absurd h hb2
          · exact absurd h hc2
      | some cl =>
        have hperm := hl cl hlv
        have hconn_nd : (connectedNodes g).Nodup := hnd.filter _
        have hfl_nd : cl.flatten.Nodup := hperm.nodup_iff.mpr hconn_nd
        have hck := commPairs_keys cl
        have hdict : dictOfPairs (commPairs cl) = commPairs cl :=
          dictOfPairs_eq (by rw [hck]; exact hfl_nd)
        have hres : detect_communities louvain g =
            commPairs cl ++ (g.nodes.filter fun n =>
              decide (lookupD (commPairs cl) n = none)).map
                fun n => (n, cl.length) := by
          rw [detect_communities_success hb2 hc2 hlv, hdict,
            addMissing_eq_append g.nodes (commPairs cl) cl.length hnd]
        have hfl_mem : ∀ x, x ∈ cl.flatten ↔ x ∈ connectedNodes g :=
          fun x => hperm.mem_iff
        have hdet_none : ∀ x, x ∉ cl.flatten →
            lookupD (commPairs cl) x = none := by
          intro x hx
          exact lookupD_eq_none.mpr (by rw [hck]; exact hx)
        have hdet_some : ∀ x ∈ cl.flatten, ∃ i, i < cl.length ∧
            lookupD (commPairs cl) x = some i := by
          intro x hx
          obtain ⟨i, hmem, hi⟩ := mem_commPairs_of_mem hx
          exact ⟨i, hi,
            lookupD_mem_of_nodup (by rw [hck]; exact hfl_nd) hmem⟩
        have hmkeys : ((g.nodes.filter fun n =>
            decide (lookupD (commPairs cl) n = none)).map
              fun n => (n, cl.length)).map Prod.fst =
            g.nodes.filter fun n =>
              decide (lookupD (commPairs cl) n = none) := by
          rw [List.map_map]
          exact List.map_id _
        have hlook : ∀ x, lookupD (detect_communities louvain g) x =
            (lookupD (commPairs cl) x).orElse fun _ =>
              (if x ∈ g.nodes.filter fun n =>
                  decide (lookupD (commPairs cl) n = none)
               then some cl.length else none) := by
          intro x
          rw [hres, lookupD_append]
          congr 1
          funext u
          by_cases hx : x ∈ g.nodes.filter fun n =>
              decide (lookupD (commPairs cl) n = none)
          · rw [if_pos hx]
            exact lookupD_map_const hx
          · rw [if_neg hx]
            refine lookupD_eq_none.mpr ?_
            rw [hmkeys]
            exact hx
        refine ⟨?_, ?_, ?_, ?_⟩
        · intro x
          rw [hlook x]
          constructor
          · intro hs
            by_cases hxl : x ∈ cl.flatten
            · exact (connectedNodes_mem.mp ((hfl_mem x).mp hxl)).1
            · rw [hdet_none x hxl] at hs
              by_cases hxf : x ∈ g.nodes.filter fun n =>
                  decide (lookupD (commPairs cl) n = none)
              · exact (List.mem_filter.mp hxf).1
              · rw [if_neg hxf] at hs
                cases hs
          · intro hx
            by_cases hxl : x ∈ cl.flatten
            · obtain ⟨i, hi, hsome⟩ := hdet_some x hxl
              rw [hsome]
              rfl
            · rw [hdet_none x hxl]
              have hxf : x ∈ g.nodes.filter fun n =>
                  decide (lookupD (commPairs cl) n = none) :=
                List.mem_filter.mpr ⟨hx, by simp [hdet_none x hxl]⟩
              rw [if_pos hxf]
              rfl
        · rw [hres, List.map_append]
          refine List.Nodup.append ?_ ?_ ?_
          · rw [hck]
            exact hfl_nd
          · rw [hmkeys]
            exact hnd.filter _
          · intro x hx1 hx2
            rw [hck] at hx1
            rw [hmkeys] at hx2
            obtain ⟨i, -, hsome⟩ := hdet_some x hx1
            have := (List.mem_filter.mp hx2).2
            rw [hsome] at this
            simp at this
        · intro cl' hb2' hc2' hcl'
          injection hcl' with hcl''
          subst hcl''
          constructor
          · intro x hx hdeg
            have hxnc : x ∉ connectedNodes g := by
              rw [connectedNodes_mem]
              rintro ⟨-, hpos⟩
              omega
            have hxl : x ∉ cl.flatten := fun hc => hxnc ((hfl_mem x).mp hc)
            have hxf : x ∈ g.nodes.filter fun n =>
                decide (lookupD (commPairs cl) n = none) :=
              List.mem_filter.mpr ⟨hx, by simp [hdet_none x hxl]⟩
            rw [hlook x, hdet_none x hxl]
            rw [if_pos hxf]
            rfl
          · intro x hx hdeg
            have hxc : x ∈ connectedNodes g :=
              connectedNodes_mem.mpr ⟨hx, Nat.pos_of_ne_zero hdeg⟩
            have hxl : x ∈ cl.flatten := (hfl_mem x).mpr hxc
            obtain ⟨i, hi, hsome⟩ := hdet_some x hxl
            refine ⟨i, hi, ?_⟩
            rw [hlook x, hsome]
            rfl
        · rintro (h | h)
          · exact absurd h hb2
          · exact absurd h hc2

/-- C5 witness: on a three-node view whose only edge joins a and b, with a
Louvain oracle returning the single community containing a and b, the
isolated node c receives the catch-all label 1 (the number of detected
communities). -/
theorem detect_communities_spec_witness :
    lookupD (detect_communities (fun _ => some [["a", "b"]])
      (⟨["a", "b", "c"], [("a", "b", 1)]⟩ : UGraph)) "c" = some 1 := by
  have hnd : (⟨["a", "b", "c"], [("a", "b", 1)]⟩ : UGraph).nodes.Nodup := by
    decide
  have hl : ∀ cl, (fun _ : UGraph => some [["a", "b"]])
      (subgraphU (⟨["a", "b", "c"], [("a", "b", 1)]⟩ : UGraph)
        (connectedNodes (⟨["a", "b", "c"], [("a", "b", 1)]⟩ : UGraph)))
        = some cl →
      cl.flatten.Perm
        (connectedNodes (⟨["a", "b", "c"], [("a", "b", 1)]⟩ : UGraph)) := by
    intro cl h
    injection h with h'
    subst h'
    have hconn : connectedNodes (⟨["a", "b", "c"], [("a", "b", 1)]⟩ : UGraph)
        = ["a", "b"] := by decide
    rw [hconn]
    rfl
  exact ((detect_communities_spec (fun _ => some [["a", "b"]])
    (⟨["a", "b", "c"], [("a", "b", 1)]⟩ : UGraph) hnd hl).2.2.1 [["a", "b"]]
    (by decide) (by decide) rfl).1 "c" (by decide) (by decide)

end WikiLiveGraph
